import Mathlib

/-!
# Verification of `bevy_mod_spatial_query` (spatial-lookup core)

Shallow embedding of the crate's spatial-lookup core in Lean 4, over exact
rational arithmetic (`ℚ` stands in for `f32`; all float operations used by the
code — add, sub, mul, halving, comparisons — are modelled exactly, and the
comparison `position.distance(sample) <= radius` is translated to its exact
equivalent `0 ≤ radius ∧ dist² ≤ radius²`).

Entities (`bevy::Entity`) are modelled as `ℕ`.  Code that can panic or
diverge (assertion failures, out-of-bounds indexing, unbounded loops) is
modelled with `Option`: `none` means the Rust computation panics or does not
terminate.  Loops and non-structural recursion carry an explicit fuel
argument consumed once per iteration, so every definition evaluates inside
the kernel; the public entry points fix a generous fuel.

Sources embedded:
  * `src/lib.rs`            — `SpatialLookupState` (orchestrator)
  * `src/algorithms/bvh.rs` — SAH BVH
  * `src/algorithms/octree.rs` — loose octree
  * `src/algorithms/naive.rs` is not part of the provided sources; the
    `Naive` algorithm is modelled from the spec (see `Naive` below).
-/

/-! ## Reducible rational arithmetic

Batteries marks `Rat.add`, `Rat.sub`, `Rat.mul` and `Rat.inv` as
`@[irreducible]`, which blocks definitional evaluation of the embedded
algorithms on concrete inputs.  The wrappers below implement the same
operations through `mkRat` (which does reduce), each with a proved agreement
lemma used to switch back to ordinary rational arithmetic inside proofs.
Comparisons (`≤`, `<`, `min`, `max`) and negation reduce as-is and are used
directly. -/

/-- Rational addition, reducibly (agrees with `+`, see `qadd_eq`). -/
def qadd (a b : ℚ) : ℚ := mkRat (a.num * b.den + b.num * a.den) (a.den * b.den)

/-- Rational subtraction, reducibly (agrees with `-`, see `qsub_eq`). -/
def qsub (a b : ℚ) : ℚ := mkRat (a.num * b.den - b.num * a.den) (a.den * b.den)

/-- Rational multiplication, reducibly (agrees with `*`, see `qmul_eq`). -/
def qmul (a b : ℚ) : ℚ := mkRat (a.num * b.num) (a.den * b.den)

/-- Halving, reducibly (the source's `* 0.5` and `/ 2.0`; see `qhalf_eq`). -/
def qhalf (a : ℚ) : ℚ := mkRat a.num (a.den * 2)

/-- Doubling, reducibly (the source's `* 2.0`; see `qdouble_eq`). -/
def qdouble (a : ℚ) : ℚ := mkRat (a.num * 2) a.den

/-- Absolute value, reducibly (agrees with `|·|`, see `qabs_eq`). -/
def qabs (a : ℚ) : ℚ := if Rat.blt a 0 then -a else a

theorem qadd_eq (a b : ℚ) : qadd a b = a + b := by
  unfold qadd
  rw [Rat.mkRat_eq_divInt, Rat.divInt_eq_div]
  have ha : (a.den : ℚ) ≠ 0 := by exact_mod_cast a.den_nz
  have hb : (b.den : ℚ) ≠ 0 := by exact_mod_cast b.den_nz
  have h : a + b = ((a.num : ℚ) / a.den) + ((b.num : ℚ) / b.den) := by
    rw [Rat.num_div_den, Rat.num_div_den]
  rw [h, div_add_div _ _ ha hb]
  push_cast
  ring_nf

theorem qsub_eq (a b : ℚ) : qsub a b = a - b := by
  unfold qsub
  rw [Rat.mkRat_eq_divInt, Rat.divInt_eq_div]
  have ha : (a.den : ℚ) ≠ 0 := by exact_mod_cast a.den_nz
  have hb : (b.den : ℚ) ≠ 0 := by exact_mod_cast b.den_nz
  have h : a - b = ((a.num : ℚ) / a.den) - ((b.num : ℚ) / b.den) := by
    rw [Rat.num_div_den, Rat.num_div_den]
  rw [h, div_sub_div _ _ ha hb]
  push_cast
  ring_nf

theorem qmul_eq (a b : ℚ) : qmul a b = a * b := by
  unfold qmul
  rw [Rat.mkRat_eq_divInt, Rat.divInt_eq_div]
  have ha : (a.den : ℚ) ≠ 0 := by exact_mod_cast a.den_nz
  have hb : (b.den : ℚ) ≠ 0 := by exact_mod_cast b.den_nz
  have h : a * b = ((a.num : ℚ) / a.den) * ((b.num : ℚ) / b.den) := by
    rw [Rat.num_div_den, Rat.num_div_den]
  rw [h, div_mul_div_comm]
  push_cast
  ring_nf

theorem qhalf_eq (a : ℚ) : qhalf a = a / 2 := by
  unfold qhalf
  rw [Rat.mkRat_eq_divInt, Rat.divInt_eq_div]
  have h : a / 2 = ((a.num : ℚ) / a.den) / 2 := by rw [Rat.num_div_den]
  rw [h, div_div]
  push_cast
  ring_nf

theorem qdouble_eq (a : ℚ) : qdouble a = a * 2 := by
  unfold qdouble
  rw [Rat.mkRat_eq_divInt, Rat.divInt_eq_div]
  have ha : (a.den : ℚ) ≠ 0 := by exact_mod_cast a.den_nz
  have h : a * 2 = ((a.num : ℚ) / a.den) * 2 := by rw [Rat.num_div_den]
  rw [h]
  push_cast
  field_simp

theorem qabs_eq (a : ℚ) : qabs a = |a| := by
  unfold qabs
  by_cases h : a < 0
  · rw [if_pos (by exact h), abs_of_neg h]
  · rw [if_neg (by exact h), abs_of_nonneg (le_of_not_lt h)]

/-! ## Geometry primitives -/

/-- 3-component vector (`bevy::Vec3`), with exact rational coordinates. -/
structure Vec3 where
  x : ℚ
  y : ℚ
  z : ℚ
deriving DecidableEq, Repr

namespace Vec3

/-- Componentwise addition. -/
def add (a b : Vec3) : Vec3 := ⟨qadd a.x b.x, qadd a.y b.y, qadd a.z b.z⟩

/-- Componentwise subtraction. -/
def sub (a b : Vec3) : Vec3 := ⟨qsub a.x b.x, qsub a.y b.y, qsub a.z b.z⟩

/-- Componentwise minimum (`Vec3::min`). -/
def minv (a b : Vec3) : Vec3 := ⟨min a.x b.x, min a.y b.y, min a.z b.z⟩

/-- Componentwise maximum (`Vec3::max`). -/
def maxv (a b : Vec3) : Vec3 := ⟨max a.x b.x, max a.y b.y, max a.z b.z⟩

/-- `Vec3::splat`. -/
def splat (q : ℚ) : Vec3 := ⟨q, q, q⟩

/-- Coordinate access by axis index, as in `position[axis]` (axes 0,1,2). -/
def coord (v : Vec3) : ℕ → ℚ
  | 0 => v.x
  | 1 => v.y
  | _ => v.z

/-- Squared Euclidean distance; `a.distance(b) ≤ r` is `dist2 a b ≤ r²` for `r ≥ 0`. -/
def dist2 (a b : Vec3) : ℚ :=
  qadd (qadd (qmul (qsub a.x b.x) (qsub a.x b.x)) (qmul (qsub a.y b.y) (qsub a.y b.y)))
    (qmul (qsub a.z b.z) (qsub a.z b.z))

theorem dist2_unfold (a b : Vec3) :
    dist2 a b = (a.x - b.x) ^ 2 + (a.y - b.y) ^ 2 + (a.z - b.z) ^ 2 := by
  unfold dist2
  simp only [qadd_eq, qsub_eq, qmul_eq]
  ring

theorem dist2_nonneg (a b : Vec3) : 0 ≤ dist2 a b := by
  have hx := sq_nonneg (a.x - b.x)
  have hy := sq_nonneg (a.y - b.y)
  have hz := sq_nonneg (a.z - b.z)
  rw [dist2_unfold]; linarith

theorem dist2_self (a : Vec3) : dist2 a a = 0 := by
  rw [dist2_unfold]; ring

end Vec3

/-- Exact translation of the leaf filter `position.distance(sample_point) <= radius`:
over the reals, `dist ≤ r ↔ 0 ≤ r ∧ dist² ≤ r²`. -/
def inRadiusB (p s : Vec3) (r : ℚ) : Bool :=
  decide (0 ≤ r) && decide (Vec3.dist2 p s ≤ qmul r r)

theorem inRadiusB_iff (p s : Vec3) (r : ℚ) :
    inRadiusB p s r = true ↔ 0 ≤ r ∧ Vec3.dist2 p s ≤ r * r := by
  simp [inRadiusB, qmul_eq]

/-- Per-axis contribution of the point-to-box minimum-squared-distance test
(Arvo box/sphere test): distance from `s` to the interval `[lo, hi]`, squared. -/
def axisContrib (s lo hi : ℚ) : ℚ :=
  if s < lo then qmul (qsub s lo) (qsub s lo)
  else if hi < s then qmul (qsub s hi) (qsub s hi) else 0

theorem axisContrib_unfold (s lo hi : ℚ) :
    axisContrib s lo hi =
      if s < lo then (s - lo) ^ 2 else if hi < s then (s - hi) ^ 2 else 0 := by
  unfold axisContrib
  split
  · simp only [qmul_eq, qsub_eq]; ring
  · split
    · simp only [qmul_eq, qsub_eq]; ring
    · rfl

theorem axisContrib_nonneg (s lo hi : ℚ) : 0 ≤ axisContrib s lo hi := by
  rw [axisContrib_unfold]
  split
  · exact sq_nonneg _
  · split
    · exact sq_nonneg _
    · exact le_refl 0

/-- If `x` lies in the interval `[lo, hi]`, the axis contribution for a sample `s`
is at most `(s - x)²`. -/
theorem axisContrib_le (s lo hi x : ℚ) (h1 : lo ≤ x) (h2 : x ≤ hi) :
    axisContrib s lo hi ≤ (s - x) ^ 2 := by
  rw [axisContrib_unfold]
  split
  · rename_i hlt
    have h3 : x - s ≥ lo - s := by linarith
    have h4 : 0 ≤ lo - s := by linarith
    calc (s - lo) ^ 2 = (lo - s) ^ 2 := by ring
    _ ≤ (x - s) ^ 2 := by nlinarith
    _ = (s - x) ^ 2 := by ring
  · split
    · rename_i hge hgt
      have h4 : 0 ≤ s - hi := by linarith
      have h3 : s - x ≥ s - hi := by linarith
      nlinarith
    · exact sq_nonneg _

/-! ## Naive algorithm

`src/algorithms/naive.rs` is not among the provided source files (only its
re-export in `src/algorithms/mod.rs` and its uses are). -/

/-- Modelled from the spec: `src/algorithms/naive.rs` is missing from the
sources.  Spec §4.2: "Prepare: store a copy of the snapshot … Query: linear
scan, exact Euclidean distance test, inclusive radius.  No incremental
support."  The stored snapshot starts empty (pre-prepare queries scan
nothing and return the empty list, per spec §8 pre-prepare safety). -/
structure Naive where
  entities : List (ℕ × Vec3)
deriving DecidableEq, Repr

namespace Naive

/-- Modelled from the spec: a fresh `Naive` with no prepared snapshot. -/
def default : Naive := ⟨[]⟩

/-- Modelled from the spec: prepare stores a copy of the snapshot. -/
def prepare (_n : Naive) (entities : List (ℕ × Vec3)) : Naive := ⟨entities⟩

/-- Modelled from the spec: linear scan with exact inclusive radius test. -/
def entitiesInRadius (n : Naive) (samplePoint : Vec3) (radius : ℚ) : List ℕ :=
  n.entities.filterMap fun ep =>
    if inRadiusB ep.2 samplePoint radius then some ep.1 else none

theorem mem_entitiesInRadius (n : Naive) (s : Vec3) (r : ℚ) (id : ℕ) :
    id ∈ n.entitiesInRadius s r ↔
      ∃ p, (id, p) ∈ n.entities ∧ inRadiusB p s r = true := by
  unfold entitiesInRadius
  rw [List.mem_filterMap]
  constructor
  · rintro ⟨⟨e, p⟩, hmem, h⟩
    by_cases hc : inRadiusB p s r = true
    · simp [hc] at h
      exact ⟨p, h ▸ hmem, hc⟩
    · simp [hc] at h
  · rintro ⟨p, hmem, h⟩
    exact ⟨(id, p), hmem, by simp [h]⟩

end Naive

/-! ## BVH algorithm (`src/algorithms/bvh.rs`) -/

/-- Axis-Aligned Bounding Box (field names follow the source, with `min`/`max`
corners). -/
structure Aabb where
  lo : Vec3
  hi : Vec3
deriving DecidableEq, Repr

namespace Aabb

/-- `Aabb::total_surface_area`. -/
def totalSurfaceArea (ab : Aabb) : ℚ :=
  let ex := qsub ab.hi.x ab.lo.x
  let ey := qsub ab.hi.y ab.lo.y
  let ez := qsub ab.hi.z ab.lo.z
  qadd (qadd (qdouble (qmul ex ey)) (qdouble (qmul ex ez))) (qdouble (qmul ey ez))

/-- Membership of a point in the box. -/
def containsPt (ab : Aabb) (p : Vec3) : Prop :=
  ab.lo.x ≤ p.x ∧ p.x ≤ ab.hi.x ∧ ab.lo.y ≤ p.y ∧ p.y ≤ ab.hi.y ∧
    ab.lo.z ≤ p.z ∧ p.z ≤ ab.hi.z

/-- `BvhNode::intersects_sphere` — Arvo's box/sphere test: summed squared
distance to the nearest face per axis, compared (inclusively) to `radius²`. -/
def intersectsSphere (ab : Aabb) (s : Vec3) (r : ℚ) : Bool :=
  decide (qadd (qadd (axisContrib s.x ab.lo.x ab.hi.x) (axisContrib s.y ab.lo.y ab.hi.y))
    (axisContrib s.z ab.lo.z ab.hi.z) ≤ qmul r r)

/-- A point of the box within radius of the sample forces the box/sphere test
to succeed (the pruning test is conservative). -/
theorem intersectsSphere_of_mem (ab : Aabb) (s p : Vec3) (r : ℚ)
    (hp : ab.containsPt p) (hr : Vec3.dist2 p s ≤ r * r) :
    ab.intersectsSphere s r = true := by
  obtain ⟨h1, h2, h3, h4, h5, h6⟩ := hp
  have cx := axisContrib_le s.x ab.lo.x ab.hi.x p.x h1 h2
  have cy := axisContrib_le s.y ab.lo.y ab.hi.y p.y h3 h4
  have cz := axisContrib_le s.z ab.lo.z ab.hi.z p.z h5 h6
  have hd : Vec3.dist2 p s =
      (s.x - p.x) ^ 2 + (s.y - p.y) ^ 2 + (s.z - p.z) ^ 2 := by
    rw [Vec3.dist2_unfold]; ring
  unfold intersectsSphere
  rw [decide_eq_true_iff]
  simp only [qadd_eq, qmul_eq]
  linarith

end Aabb

/-- `calculate_aabb`: tight bounding box of a point list.  The source asserts
the slice is non-empty; all call sites below guard non-emptiness (the
degenerate `[]` case returns the zero box and is never reached from guarded
callers). -/
def calculateAabb : List (ℕ × Vec3) → Aabb
  | [] => ⟨⟨0, 0, 0⟩, ⟨0, 0, 0⟩⟩
  | ep :: rest =>
    rest.foldl (fun ab ep' => ⟨ab.lo.minv ep'.2, ab.hi.maxv ep'.2⟩) ⟨ep.2, ep.2⟩

/-- Folding the min/max update preserves containment of any already-covered point. -/
theorem aabbFold_preserves (l : List (ℕ × Vec3)) :
    ∀ (ab : Aabb) (p : Vec3), ab.containsPt p →
      (l.foldl (fun ab ep' => ⟨ab.lo.minv ep'.2, ab.hi.maxv ep'.2⟩) ab).containsPt p := by
  induction l with
  | nil => intro ab p h; exact h
  | cons hd tl ih =>
    intro ab p h
    obtain ⟨h1, h2, h3, h4, h5, h6⟩ := h
    apply ih
    refine ⟨?_, ?_, ?_, ?_, ?_, ?_⟩ <;> simp only [Vec3.minv, Vec3.maxv]
    · exact le_trans (min_le_left _ _) h1
    · exact le_trans h2 (le_max_left _ _)
    · exact le_trans (min_le_left _ _) h3
    · exact le_trans h4 (le_max_left _ _)
    · exact le_trans (min_le_left _ _) h5
    · exact le_trans h6 (le_max_left _ _)

/-- Every element folded in is covered by the resulting box. -/
theorem aabbFold_covers (l : List (ℕ × Vec3)) :
    ∀ (ab : Aabb) (ep : ℕ × Vec3), ep ∈ l →
      (l.foldl (fun ab ep' => ⟨ab.lo.minv ep'.2, ab.hi.maxv ep'.2⟩) ab).containsPt ep.2 := by
  induction l with
  | nil => intro ab ep h; exact absurd h (List.not_mem_nil ep)
  | cons hd tl ih =>
    intro ab ep hmem
    rw [List.foldl_cons]
    rcases List.mem_cons.mp hmem with rfl | htl
    · apply aabbFold_preserves
      refine ⟨?_, ?_, ?_, ?_, ?_, ?_⟩ <;> simp only [Vec3.minv, Vec3.maxv]
      · exact min_le_right _ _
      · exact le_max_right _ _
      · exact min_le_right _ _
      · exact le_max_right _ _
      · exact min_le_right _ _
      · exact le_max_right _ _
    · exact ih _ ep htl

theorem calculateAabb_contains (es : List (ℕ × Vec3)) (ep : ℕ × Vec3)
    (hmem : ep ∈ es) : (calculateAabb es).containsPt ep.2 := by
  cases es with
  | nil => exact absurd hmem (List.not_mem_nil ep)
  | cons hd tl =>
    rcases List.mem_cons.mp hmem with rfl | htl
    · unfold calculateAabb
      apply aabbFold_preserves
      exact ⟨le_refl _, le_refl _, le_refl _, le_refl _, le_refl _, le_refl _⟩
    · unfold calculateAabb
      exact aabbFold_covers tl _ ep htl

/-! ### BVH tree construction -/

/-- Node of the BVH tree: an AABB plus either a leaf's entity list or two
children (`BvhNode` + `BvhNodeKind` from the source, fused into one inductive). -/
inductive BvhNode where
  | leaf (aabb : Aabb) (pairs : List (ℕ × Vec3))
  | branch (aabb : Aabb) (left right : BvhNode)
deriving Repr

namespace BvhNode

/-- The node's bounding box (`self.aabb`). -/
def aabb : BvhNode → Aabb
  | .leaf ab _ => ab
  | .branch ab _ _ => ab

/-- All (entity, position) pairs stored in the subtree (specification helper). -/
def pairs : BvhNode → List (ℕ × Vec3)
  | .leaf _ ps => ps
  | .branch _ l r => l.pairs ++ r.pairs

/-- `BvhNode::count_depth`. -/
def countDepth : BvhNode → ℕ
  | .leaf _ _ => 1
  | .branch _ l r => 1 + max l.countDepth r.countDepth

end BvhNode

/-- Strict comparison of a finite cost against the running minimum
(`current_cost < min.1`, where the minimum starts at `f32::INFINITY`,
represented by `none`). -/
def costLt (c : ℚ) : Option ℚ → Bool
  | none => true
  | some m => decide (c < m)

/-- Total order on costs-with-infinity, mirroring `FloatOrd` comparison. -/
def costLe : Option ℚ → Option ℚ → Bool
  | none, none => true
  | none, some _ => false
  | some _, none => true
  | some a, some b => decide (a ≤ b)

/-- `cost`: Surface-Area-Heuristic cost of splitting the sorted slice at
`index` — left surface area × left count + right surface area × right count. -/
def costQ (entities : List (ℕ × Vec3)) (index : ℕ) : ℚ :=
  let left := entities.take index
  let right := entities.drop index
  qadd (qmul (calculateAabb left).totalSurfaceArea (left.length : ℚ))
    (qmul (calculateAabb right).totalSurfaceArea (right.length : ℚ))

/-- The candidate split indices iterated by `find_split_index_and_cost`:
`(1..n-1).step_by(step)`, i.e. `1, 1+step, 1+2*step, …` strictly below `n-1`. -/
def candidateIndices (n step : ℕ) : List ℕ :=
  (List.range ((n - 2 + (step - 1)) / step)).map fun k => 1 + k * step

theorem mem_candidateIndices (n step i : ℕ) (hstep : 1 ≤ step) :
    i ∈ candidateIndices n step ↔ (∃ k, i = 1 + k * step) ∧ 1 ≤ i ∧ i < n - 1 := by
  unfold candidateIndices
  rw [List.mem_map]
  constructor
  · rintro ⟨k, hk, rfl⟩
    rw [List.mem_range] at hk
    refine ⟨⟨k, rfl⟩, Nat.le_add_right 1 _, ?_⟩
    have h1 : (k + 1) * step ≤ ((n - 2 + (step - 1)) / step) * step :=
      Nat.mul_le_mul_right _ hk
    have h2 : ((n - 2 + (step - 1)) / step) * step ≤ n - 2 + (step - 1) :=
      Nat.div_mul_le_self _ _
    have h3 : k * step + step ≤ n - 2 + (step - 1) := by
      have h4 : (k + 1) * step = k * step + step := by ring
      omega
    omega
  · rintro ⟨⟨k, rfl⟩, _, hlt⟩
    refine ⟨k, ?_, rfl⟩
    rw [List.mem_range]
    have h4 : (k + 1) * step ≤ n - 2 + (step - 1) := by
      have h6 : (k + 1) * step = k * step + step := by ring
      omega
    have h5 : k + 1 ≤ (n - 2 + (step - 1)) / step :=
      (Nat.le_div_iff_mul_le (by omega)).mpr h4
    omega

/-- The exact list of split indices whose SAH cost `find_split_index_and_cost`
evaluates for a slice: `samples = len.min(max)`, `step = len / samples`, and
the iterated range is `(1..len-1).step_by(step)`. -/
def evaluatedSplitCandidates (entities : List (ℕ × Vec3))
    (maxSplitSamplesPerAxis : ℕ) : List ℕ :=
  candidateIndices entities.length
    (entities.length / min entities.length maxSplitSamplesPerAxis)

/-- `find_split_index_and_cost`: find the best split index (and its cost) of
the sorted slice, sampling `(1..len-1).step_by(len / min(len, max))`.
Returns `none` where the Rust code panics: the `assert!(entities.len() > 1)`
and the division/`step_by` with a zero step (`max_split_samples_per_axis == 0`). -/
def findSplitIndexAndCost (entities : List (ℕ × Vec3))
    (maxSplitSamplesPerAxis : ℕ) : Option (ℕ × Option ℚ) :=
  if entities.length ≤ 1 ∨ maxSplitSamplesPerAxis = 0 then none
  else
    some ((evaluatedSplitCandidates entities maxSplitSamplesPerAxis).foldl
      (fun m i => if costLt (costQ entities i) m.2 then (i, some (costQ entities i)) else m)
      (1, none))

/-- Sorting of a slice by one axis's coordinate (`sort_unstable_by_key` with
`FloatOrd(position[axis])`).  The source's unstable sort produces an
unspecified sorted permutation; we model it with insertion sort, which is one
such permutation. -/
def sortByAxis (axis : ℕ) (entities : List (ℕ × Vec3)) : List (ℕ × Vec3) :=
  entities.insertionSort fun a b => Vec3.coord a.2 axis ≤ Vec3.coord b.2 axis

/-- Selection of the axis of globally lowest cost
(`costs.iter().enumerate().min_by_key(...)`; Rust's `min_by_key` returns the
first of equally-minimal elements). -/
def chooseAxis (c0 c1 c2 : ℕ × Option ℚ) : ℕ × (ℕ × Option ℚ) :=
  if costLe c0.2 c1.2 && costLe c0.2 c2.2 then (0, c0)
  else if costLe c1.2 c2.2 then (1, c1)
  else (2, c2)

/-- `split_node`: recursively split a slice into BVH nodes.  `fuel` bounds the
recursion depth (each split strictly shrinks the slice, so `entities.length`
levels always suffice); `none` models a panic (empty slice assertion, or the
asserts inside `find_split_index_and_cost`). -/
def splitNode (fuel : ℕ) (entities : List (ℕ × Vec3))
    (entitiesPerLeaf maxSplitSamplesPerAxis : ℕ) : Option BvhNode :=
  match fuel with
  | 0 => none
  | fuel + 1 =>
    if entities = [] then none
    else
      let aabb := calculateAabb entities
      if entities.length ≤ entitiesPerLeaf then some (.leaf aabb entities)
      else
        match findSplitIndexAndCost (sortByAxis 0 entities) maxSplitSamplesPerAxis,
              findSplitIndexAndCost (sortByAxis 1 entities) maxSplitSamplesPerAxis,
              findSplitIndexAndCost (sortByAxis 2 entities) maxSplitSamplesPerAxis with
        | some c0, some c1, some c2 =>
          let ac := chooseAxis c0 c1 c2
          let sorted := sortByAxis ac.1 entities
          match splitNode fuel (sorted.take ac.2.1) entitiesPerLeaf maxSplitSamplesPerAxis,
                splitNode fuel (sorted.drop ac.2.1) entitiesPerLeaf maxSplitSamplesPerAxis with
          | some l, some r => some (.branch aabb l r)
          | _, _ => none
        | _, _, _ => none

/-- The `Bvh` algorithm state: configuration, optional root, realized depth. -/
structure Bvh where
  entitiesPerLeaf : ℕ
  maxSplitSamplesPerAxis : ℕ
  root : Option BvhNode
  treeDepth : ℕ

namespace Bvh

/-- `Bvh::default()`. -/
def default : Bvh := ⟨10000, 10, none, 0⟩

/-- `Bvh::prepare` — full rebuild: split the snapshot from the root.  `none`
models the panic reached on an empty snapshot (`split_node` asserts
non-emptiness). -/
def prepare (b : Bvh) (entities : List (ℕ × Vec3)) : Option Bvh :=
  match splitNode (entities.length + 1) entities b.entitiesPerLeaf
      b.maxSplitSamplesPerAxis with
  | none => none
  | some root => some { b with root := some root, treeDepth := root.countDepth }

end Bvh

/-- `BvhNode::entities_in_radius`: prune on the box/sphere test, exact
per-point inclusive filter at leaves, concatenate both children at branches. -/
def BvhNode.entitiesInRadius : BvhNode → Vec3 → ℚ → List ℕ
  | .leaf ab ps, s, r =>
    if ab.intersectsSphere s r then
      ps.filterMap fun ep => if inRadiusB ep.2 s r then some ep.1 else none
    else []
  | .branch ab l rgt, s, r =>
    if ab.intersectsSphere s r then
      l.entitiesInRadius s r ++ rgt.entitiesInRadius s r
    else []

/-- `Bvh::entities_in_radius` (trait impl): traverse from the root; with no
root (never prepared) warn and return no entities. -/
def Bvh.entitiesInRadius (b : Bvh) (samplePoint : Vec3) (radius : ℚ) : List ℕ :=
  match b.root with
  | some root => root.entitiesInRadius samplePoint radius
  | none => []

/-! ### BVH correctness lemmas -/

/-- Generic leaf filter: membership in the exact-radius `filter_map`. -/
theorem mem_radiusFilter (ps : List (ℕ × Vec3)) (s : Vec3) (r : ℚ) (id : ℕ) :
    id ∈ (ps.filterMap fun ep => if inRadiusB ep.2 s r then some ep.1 else none) ↔
      ∃ p, (id, p) ∈ ps ∧ inRadiusB p s r = true := by
  rw [List.mem_filterMap]
  constructor
  · rintro ⟨⟨e, p⟩, hmem, h⟩
    by_cases hc : inRadiusB p s r = true
    · simp [hc] at h
      exact ⟨p, h ▸ hmem, hc⟩
    · simp [hc] at h
  · rintro ⟨p, hmem, h⟩
    exact ⟨(id, p), hmem, by simp [h]⟩

/-- A sorted-by-axis slice is a permutation of the original slice. -/
theorem sortByAxis_perm (axis : ℕ) (es : List (ℕ × Vec3)) :
    (sortByAxis axis es).Perm es :=
  List.perm_insertionSort _ es

/-- `split_node` only redistributes: the pairs stored in the resulting tree
are a permutation of the input slice. -/
theorem splitNode_pairs_perm :
    ∀ (fuel : ℕ) (es : List (ℕ × Vec3)) (eplf mssa : ℕ) (n : BvhNode),
      splitNode fuel es eplf mssa = some n → n.pairs.Perm es := by
  intro fuel
  induction fuel with
  | zero => intro es _ _ n h; simp [splitNode] at h
  | succ fuel ih =>
    intro es eplf mssa n h
    rw [splitNode] at h
    by_cases hne : es = []
    · rw [if_pos hne] at h; exact absurd h (by simp)
    · rw [if_neg hne] at h
      by_cases hlen : es.length ≤ eplf
      · rw [if_pos hlen] at h
        have hn : n = .leaf (calculateAabb es) es := by
          injection h with h'; exact h'.symm
        subst hn
        exact List.Perm.refl es
      · rw [if_neg hlen] at h
        rcases h0 : findSplitIndexAndCost (sortByAxis 0 es) mssa with _ | c0 <;>
          rw [h0] at h
        · exact absurd h (by simp)
        rcases h1 : findSplitIndexAndCost (sortByAxis 1 es) mssa with _ | c1 <;>
          rw [h1] at h
        · exact absurd h (by simp)
        rcases h2 : findSplitIndexAndCost (sortByAxis 2 es) mssa with _ | c2 <;>
          rw [h2] at h
        · exact absurd h (by simp)
        simp only [] at h
        rcases hl : splitNode fuel
            ((sortByAxis (chooseAxis c0 c1 c2).1 es).take (chooseAxis c0 c1 c2).2.1)
            eplf mssa with _ | l <;> rw [hl] at h
        · exact absurd h (by simp)
        rcases hr : splitNode fuel
            ((sortByAxis (chooseAxis c0 c1 c2).1 es).drop (chooseAxis c0 c1 c2).2.1)
            eplf mssa with _ | r <;> rw [hr] at h
        · exact absurd h (by simp)
        have hn : n = .branch (calculateAabb es) l r := by
          injection h with h'; exact h'.symm
        subst hn
        have hperm : (l.pairs ++ r.pairs).Perm
            ((sortByAxis (chooseAxis c0 c1 c2).1 es).take (chooseAxis c0 c1 c2).2.1 ++
             (sortByAxis (chooseAxis c0 c1 c2).1 es).drop (chooseAxis c0 c1 c2).2.1) :=
          List.Perm.append (ih _ _ _ _ hl) (ih _ _ _ _ hr)
        rw [List.take_append_drop] at hperm
        exact hperm.trans (sortByAxis_perm _ es)

/-- Boundedness invariant: every node's box covers every pair stored in its
subtree. -/
def BvhNode.Bounded : BvhNode → Prop
  | .leaf ab ps => ∀ ep ∈ ps, ab.containsPt ep.2
  | .branch ab l r =>
      (∀ ep ∈ l.pairs ++ r.pairs, ab.containsPt ep.2) ∧ l.Bounded ∧ r.Bounded

/-- `split_node` produces bounded trees: each node's AABB is computed over
exactly the pairs that end up in its subtree. -/
theorem splitNode_bounded :
    ∀ (fuel : ℕ) (es : List (ℕ × Vec3)) (eplf mssa : ℕ) (n : BvhNode),
      splitNode fuel es eplf mssa = some n → n.Bounded := by
  intro fuel
  induction fuel with
  | zero => intro es _ _ n h; simp [splitNode] at h
  | succ fuel ih =>
    intro es eplf mssa n h
    have hperm := splitNode_pairs_perm (fuel + 1) es eplf mssa n h
    rw [splitNode] at h
    by_cases hne : es = []
    · rw [if_pos hne] at h; exact absurd h (by simp)
    · rw [if_neg hne] at h
      by_cases hlen : es.length ≤ eplf
      · rw [if_pos hlen] at h
        have hn : n = .leaf (calculateAabb es) es := by
          injection h with h'; exact h'.symm
        subst hn
        intro ep hep
        exact calculateAabb_contains es ep hep
      · rw [if_neg hlen] at h
        rcases h0 : findSplitIndexAndCost (sortByAxis 0 es) mssa with _ | c0 <;>
          rw [h0] at h
        · exact absurd h (by simp)
        rcases h1 : findSplitIndexAndCost (sortByAxis 1 es) mssa with _ | c1 <;>
          rw [h1] at h
        · exact absurd h (by simp)
        rcases h2 : findSplitIndexAndCost (sortByAxis 2 es) mssa with _ | c2 <;>
          rw [h2] at h
        · exact absurd h (by simp)
        simp only [] at h
        rcases hl : splitNode fuel
            ((sortByAxis (chooseAxis c0 c1 c2).1 es).take (chooseAxis c0 c1 c2).2.1)
            eplf mssa with _ | l <;> rw [hl] at h
        · exact absurd h (by simp)
        rcases hr : splitNode fuel
            ((sortByAxis (chooseAxis c0 c1 c2).1 es).drop (chooseAxis c0 c1 c2).2.1)
            eplf mssa with _ | r <;> rw [hr] at h
        · exact absurd h (by simp)
        have hn : n = .branch (calculateAabb es) l r := by
          injection h with h'; exact h'.symm
        subst hn
        refine ⟨?_, ih _ _ _ _ hl, ih _ _ _ _ hr⟩
        intro ep hep
        have : ep ∈ es := hperm.mem_iff.mp hep
        exact calculateAabb_contains es ep this

/-- Query characterization: on a bounded tree, `entities_in_radius` returns
exactly the identifiers of stored pairs within the (inclusive) radius —
the pruning test never loses an in-radius point. -/
theorem BvhNode.mem_entitiesInRadius_node (n : BvhNode) (hb : n.Bounded) (s : Vec3)
    (r : ℚ) (id : ℕ) :
    id ∈ n.entitiesInRadius s r ↔
      ∃ p, (id, p) ∈ n.pairs ∧ inRadiusB p s r = true := by
  induction n with
  | leaf ab ps =>
    by_cases hi : ab.intersectsSphere s r = true
    · simp only [entitiesInRadius, hi, if_true, pairs]
      exact mem_radiusFilter ps s r id
    · simp only [entitiesInRadius, hi, if_false, Bool.false_eq_true, pairs]
      constructor
      · intro h; exact absurd h (List.not_mem_nil id)
      · rintro ⟨p, hp, hr⟩
        rw [inRadiusB_iff] at hr
        exact absurd (Aabb.intersectsSphere_of_mem ab s p r (hb (id, p) hp) hr.2) hi
  | branch ab l rgt ihl ihr =>
    obtain ⟨hcov, hbl, hbr⟩ := hb
    by_cases hi : ab.intersectsSphere s r = true
    · simp only [entitiesInRadius, hi, if_true, pairs, List.mem_append]
      rw [ihl hbl, ihr hbr]
      constructor
      · rintro (⟨p, hp, hr⟩ | ⟨p, hp, hr⟩)
        · exact ⟨p, Or.inl hp, hr⟩
        · exact ⟨p, Or.inr hp, hr⟩
      · rintro ⟨p, hp | hp, hr⟩
        · exact Or.inl ⟨p, hp, hr⟩
        · exact Or.inr ⟨p, hp, hr⟩
    · simp only [entitiesInRadius, hi, if_false, Bool.false_eq_true, pairs]
      constructor
      · intro h; exact absurd h (List.not_mem_nil id)
      · rintro ⟨p, hp, hr⟩
        rw [inRadiusB_iff] at hr
        exact absurd (Aabb.intersectsSphere_of_mem ab s p r (hcov (id, p) hp) hr.2) hi

/-- Prepared-BVH query agrees (as a set of identifiers) with the naive linear
scan over the same snapshot. -/
theorem Bvh.mem_entitiesInRadius_prepared (b b' : Bvh) (es : List (ℕ × Vec3))
    (hprep : b.prepare es = some b') (s : Vec3) (r : ℚ) (id : ℕ) :
    id ∈ b'.entitiesInRadius s r ↔
      ∃ p, (id, p) ∈ es ∧ inRadiusB p s r = true := by
  unfold Bvh.prepare at hprep
  rcases hroot : splitNode (es.length + 1) es b.entitiesPerLeaf
      b.maxSplitSamplesPerAxis with _ | root <;> rw [hroot] at hprep
  · exact absurd hprep (by simp)
  have hb' : b' = { b with root := some root, treeDepth := root.countDepth } := by
    injection hprep with h'; exact h'.symm
  subst hb'
  unfold Bvh.entitiesInRadius
  simp only []
  rw [BvhNode.mem_entitiesInRadius_node root (splitNode_bounded _ _ _ _ _ hroot) s r id]
  have hperm := splitNode_pairs_perm _ _ _ _ _ hroot
  constructor
  · rintro ⟨p, hp, hr⟩; exact ⟨p, hperm.mem_iff.mp hp, hr⟩
  · rintro ⟨p, hp, hr⟩; exact ⟨p, hperm.mem_iff.mpr hp, hr⟩

/-! ### SAH split-selection lemmas (for C6) -/

theorem costLe_refl (c : Option ℚ) : costLe c c = true := by
  cases c <;> simp [costLe]

theorem costLe_trans (a b c : Option ℚ) (h1 : costLe a b = true)
    (h2 : costLe b c = true) : costLe a c = true := by
  cases a <;> cases b <;> cases c <;> simp [costLe] at * <;> linarith

theorem costLe_of_costLt (c : ℚ) (m : Option ℚ) (h : costLt c m = true) :
    costLe (some c) m = true := by
  cases m <;> simp [costLt, costLe] at * <;> linarith

theorem costLe_of_not_costLt (c : ℚ) (m : Option ℚ) (h : costLt c m = false) :
    costLe m (some c) = true := by
  cases m <;> simp [costLt, costLe] at * <;> linarith

/-- The running minimum of the SAH fold never increases. -/
theorem splitFold_le (es : List (ℕ × Vec3)) (cands : List ℕ) :
    ∀ m : ℕ × Option ℚ,
      costLe (cands.foldl
        (fun m i => if costLt (costQ es i) m.2 then (i, some (costQ es i)) else m) m).2
        m.2 = true := by
  induction cands with
  | nil => intro m; exact costLe_refl m.2
  | cons i t ih =>
    intro m
    rw [List.foldl_cons]
    by_cases hc : costLt (costQ es i) m.2 = true
    · rw [if_pos hc]
      exact costLe_trans _ _ _ (ih (i, some (costQ es i))) (costLe_of_costLt _ _ hc)
    · rw [if_neg hc]
      exact ih m

/-- The SAH fold's final cost is ≤ the cost of every candidate it visited. -/
theorem splitFold_min (es : List (ℕ × Vec3)) (cands : List ℕ) :
    ∀ (m : ℕ × Option ℚ) (j : ℕ), j ∈ cands →
      costLe (cands.foldl
        (fun m i => if costLt (costQ es i) m.2 then (i, some (costQ es i)) else m) m).2
        (some (costQ es j)) = true := by
  induction cands with
  | nil => intro m j h; exact absurd h (List.not_mem_nil j)
  | cons i t ih =>
    intro m j hj
    rw [List.foldl_cons]
    rcases List.mem_cons.mp hj with rfl | hjt
    · by_cases hc : costLt (costQ es j) m.2 = true
      · rw [if_pos hc]
        exact costLe_trans _ _ _ (splitFold_le es t _) (costLe_refl _)
      · rw [if_neg hc]
        exact costLe_trans _ _ _ (splitFold_le es t _)
          (costLe_of_not_costLt _ _ (Bool.eq_false_iff.mpr hc))
    · by_cases hc : costLt (costQ es i) m.2 = true
      · rw [if_pos hc]; exact ih _ j hjt
      · rw [if_neg hc]; exact ih _ j hjt

/-- The SAH fold either keeps the initial accumulator or returns a visited
candidate paired with its own cost. -/
theorem splitFold_result (es : List (ℕ × Vec3)) (cands : List ℕ) :
    ∀ m : ℕ × Option ℚ,
      (cands.foldl
        (fun m i => if costLt (costQ es i) m.2 then (i, some (costQ es i)) else m) m) = m ∨
      ∃ i ∈ cands,
        (cands.foldl
          (fun m i => if costLt (costQ es i) m.2 then (i, some (costQ es i)) else m) m) =
          (i, some (costQ es i)) := by
  induction cands with
  | nil => intro m; exact Or.inl rfl
  | cons i t ih =>
    intro m
    rw [List.foldl_cons]
    by_cases hc : costLt (costQ es i) m.2 = true
    · rw [if_pos hc]
      rcases ih (i, some (costQ es i)) with h | ⟨i', hi', h⟩
      · exact Or.inr ⟨i, List.mem_cons_self i t, h⟩
      · exact Or.inr ⟨i', List.mem_cons_of_mem i hi', h⟩
    · rw [if_neg hc]
      rcases ih m with h | ⟨i', hi', h⟩
      · exact Or.inl h
      · exact Or.inr ⟨i', List.mem_cons_of_mem i hi', h⟩

theorem costLe_none_some (c : ℚ) : costLe none (some c) = false := by
  simp [costLe]

/-! ## Octree algorithm (`src/algorithms/octree.rs`) -/

/-- `OctreeConfig`. -/
structure OctreeConfig where
  bucketCapacity : ℕ
  splitThreshold : ℕ
  maxDepth : ℕ
  minHalfSize : ℚ
  loosePadding : ℚ
  initialPadding : ℚ
deriving DecidableEq, Repr

/-- `OctreeConfig::default()`. -/
def OctreeConfig.default : OctreeConfig := ⟨16, 32, 16, mkRat 1 4, mkRat 1 2, 1⟩

/-- Cubical bounding volume: center + half-extent. -/
structure AabbCube where
  center : Vec3
  half : ℚ
deriving DecidableEq, Repr

namespace AabbCube

/-- `AabbCube::contains`: componentwise `|p - center| ≤ half + padding`. -/
def containsP (c : AabbCube) (p : Vec3) (padding : ℚ) : Bool :=
  let h := qadd c.half padding
  decide (qabs (qsub p.x c.center.x) ≤ h) && decide (qabs (qsub p.y c.center.y) ≤ h) &&
    decide (qabs (qsub p.z c.center.z) ≤ h)

/-- `AabbCube::intersects_sphere`: squared distance from the sphere center to
the cube's derived `[center-half, center+half]` box, compared to `r²`
(per-axis terms are `axisContrib`, since `(mi-ci)² = (ci-mi)²`). -/
def intersectsSphereC (cube : AabbCube) (c : Vec3) (r : ℚ) : Bool :=
  decide (qadd (qadd
    (axisContrib c.x (qsub cube.center.x cube.half) (qadd cube.center.x cube.half))
    (axisContrib c.y (qsub cube.center.y cube.half) (qadd cube.center.y cube.half)))
    (axisContrib c.z (qsub cube.center.z cube.half) (qadd cube.center.z cube.half)) ≤ qmul r r)

end AabbCube

/-- Arena node: cubical bounds, depth, either 8 children-by-index or a leaf
bucket. -/
structure ONode where
  bounds : AabbCube
  depth : ℕ
  children : Option (List ℕ)
  bucket : List (ℕ × Vec3)
deriving DecidableEq, Repr

/-- `Node::is_leaf`. -/
def ONode.isLeaf (n : ONode) : Bool := n.children.isNone

/-- The `Octree` state: configuration, `built` flag, node arena (index 0 is
the root), and the entity → leaf-index reverse map (`HashMap` modelled as a
function into `Option`). -/
structure Octree where
  cfg : OctreeConfig
  built : Bool
  nodes : List ONode
  entityLeaf : ℕ → Option ℕ

/-- `Octree::new`. -/
def Octree.new (cfg : OctreeConfig) : Octree := ⟨cfg, false, [], fun _ => none⟩

/-- `Octree::child_index`: 3-bit octant selector (`idx |= 1/2/4` when the
point is ≥ the center on the x/y/z axis). -/
def childIndexOf (center p : Vec3) : ℕ :=
  (if center.x ≤ p.x then 1 else 0) + (if center.y ≤ p.y then 2 else 0) +
    (if center.z ≤ p.z then 4 else 0)

/-- Center of octant `i` of a cube (`split_leaf`'s child placement:
`+child_half` on an axis when the corresponding bit of `i` is set). -/
def childCenter (bounds : AabbCube) (i : ℕ) : Vec3 :=
  let ch := qhalf bounds.half
  ⟨qadd bounds.center.x (if i % 2 = 1 then ch else -ch),
   qadd bounds.center.y (if i / 2 % 2 = 1 then ch else -ch),
   qadd bounds.center.z (if i / 4 % 2 = 1 then ch else -ch)⟩

/-- `Vec::swap(i, j)`; `none` models the out-of-bounds panic. -/
def listSwap {α : Type} (l : List α) (i j : ℕ) : Option (List α) :=
  match l[i]?, l[j]? with
  | some a, some b => some ((l.set i b).set j a)
  | _, _ => none

/-- `Vec::swap_remove(i)`: replace element `i` with the last element and pop.
Callers only use it with `i` a valid index of a non-empty list. -/
def swapRemove {α : Type} (l : List α) (i : ℕ) : List α :=
  match l.getLast? with
  | none => l
  | some last => (l.set i last).dropLast

/-- Pending work of the insertion machine: either "insert `(e, p)` descending
from node `idx`" (`insert_into`) or "split leaf `idx`" (`split_leaf`).
The two Rust functions are mutually recursive; they are modelled as one
fuel-indexed worklist interpreter that processes operations in order. -/
inductive OctOp where
  | ins (idx e : ℕ) (p : Vec3)
  | split (idx : ℕ)

/-- The 8 fresh child leaves allocated by a split of node `n`. -/
def splitChildren (n : ONode) : List ONode :=
  (List.range 8).map fun i =>
    ONode.mk ⟨childCenter n.bounds i, qhalf n.bounds.half⟩ (n.depth + 1) none []

/-- The split node: children indices `base..base+7`, bucket cleared. -/
def splitParent (n : ONode) (base : ℕ) : ONode :=
  { n with children := some ((List.range 8).map fun i => base + i), bucket := [] }

/-- The `insert_into` / `split_leaf` pair as a worklist machine.  One unit of
fuel is consumed per processed operation; `none` models a panic (arena index
out of bounds) or fuel exhaustion.  Faithful to the source:
  * `insert_into` descends by `child_index` until a leaf, pushes `(e, p)`
    onto the bucket, records the reverse-map entry, and splits when
    `bucket.len() > split_threshold`;
  * `split_leaf` returns unchanged at `max_depth` or when the child
    half-extent would fall below `min_half_size`; otherwise allocates 8 child
    leaves at the end of the arena, clears the bucket, and re-inserts every
    bucketed pair from the split node (in bucket order, before any remaining
    pending work). -/
def octRun (cfg : OctreeConfig) :
    ℕ → List ONode → (ℕ → Option ℕ) → List OctOp →
      Option (List ONode × (ℕ → Option ℕ))
  | _, nodes, m, [] => some (nodes, m)
  | 0, _, _, _ :: _ => none
  | fuel + 1, nodes, m, op :: rest =>
    match op with
    | .ins idx e p =>
      match nodes[idx]? with
      | none => none
      | some n =>
        match n.children with
        | some cs =>
          match cs[childIndexOf n.bounds.center p]? with
          | none => none
          | some child => octRun cfg fuel nodes m (.ins child e p :: rest)
        | none =>
          if cfg.splitThreshold < (n.bucket ++ [(e, p)]).length then
            octRun cfg fuel (nodes.set idx { n with bucket := n.bucket ++ [(e, p)] })
              (fun k => if k = e then some idx else m k) (.split idx :: rest)
          else
            octRun cfg fuel (nodes.set idx { n with bucket := n.bucket ++ [(e, p)] })
              (fun k => if k = e then some idx else m k) rest
    | .split idx =>
      match nodes[idx]? with
      | none => none
      | some n =>
        if cfg.maxDepth ≤ n.depth ∨ qhalf n.bounds.half < cfg.minHalfSize then
          octRun cfg fuel nodes m rest
        else
          octRun cfg fuel ((nodes ++ splitChildren n).set idx (splitParent n nodes.length)) m
            ((n.bucket.map fun ep => OctOp.ins idx ep.1 ep.2) ++ rest)

/-- `fix_leaf_indices_after_swap`: re-point the reverse map at the swapped
arena slots for every entity bucketed in a swapped leaf. -/
def fixLeafIndicesAfterSwap (nodes : List ONode) (m : ℕ → Option ℕ)
    (a b : ℕ) : ℕ → Option ℕ :=
  let upd := fun (m : ℕ → Option ℕ) (idx : ℕ) =>
    match nodes[idx]? with
    | some n =>
      if n.children.isNone then
        n.bucket.foldl (fun m ep => fun k => if k = ep.1 then some idx else m k) m
      else m
    | none => m
  upd (upd m a) b

/-- `ensure_root_contains`: while the root's padded cube does not contain `p`,
double the half-extent, move the center toward `p` by the old half-extent,
push the larger root at the end of the arena, swap it into slot 0, split it,
and swap the old root into the matching child octant.  One unit of fuel per
growth iteration; the inner `split_leaf(0)` runs on the worklist machine.
The `.unwrap()` of the fresh root's children (a panic when the split was
refused, e.g. `max_depth == 0`) is modelled by `none`. -/
def growLoop (cfg : OctreeConfig) (fuel : ℕ) (nodes : List ONode)
    (m : ℕ → Option ℕ) (p : Vec3) : Option (List ONode × (ℕ → Option ℕ)) :=
  match nodes[0]? with
  | none => none
  | some root =>
    if root.bounds.containsP p cfg.loosePadding then some (nodes, m)
    else
      match fuel with
      | 0 => none
      | fuel + 1 =>
        let old := root.bounds
        -- dir = (p - center).signum(); offset = ±old.half with dir ≥ 0 ⟺ p ≥ center
        let offx := if 0 ≤ qsub p.x old.center.x then old.half else -old.half
        let offy := if 0 ≤ qsub p.y old.center.y then old.half else -old.half
        let offz := if 0 ≤ qsub p.z old.center.z then old.half else -old.half
        let newCenter : Vec3 :=
          ⟨qadd old.center.x offx, qadd old.center.y offy, qadd old.center.z offz⟩
        let newRootIndex := nodes.length
        let nodes1 := nodes ++ [ONode.mk ⟨newCenter, qdouble old.half⟩ 0 none []]
        match listSwap nodes1 0 newRootIndex with
        | none => none
        | some nodes2 =>
          match nodes2[0]? with
          | none => none
          | some r0 =>
            let nodes3 := nodes2.set 0 { r0 with depth := 0 }
            match octRun cfg (fuel + 1) nodes3 m [.split 0] with
            | none => none
            | some (nodes4, m1) =>
              match nodes4[0]? with
              | none => none
              | some nroot =>
                match nroot.children with
                | none => none
                | some cs =>
                  match cs[childIndexOf nroot.bounds.center old.center]? with
                  | none => none
                  | some childNodeIdx =>
                    match listSwap nodes4 childNodeIdx newRootIndex with
                    | none => none
                    | some nodes5 =>
                      growLoop cfg fuel nodes5
                        (fixLeafIndicesAfterSwap nodes5 m1 childNodeIdx newRootIndex) p

/-- Fuel used for one insertion (growth iterations + worklist steps).  Any
bound works for the theorems below (success is part of their hypotheses or
is proved for the concrete inputs involved). -/
def octFuel (cfg : OctreeConfig) (nodes : List ONode) : ℕ :=
  nodes.length + cfg.maxDepth + cfg.splitThreshold + 99

/-- `Octree::insert_internal` on the raw state: bootstrap a root when the
arena is empty (`half = min_half_size.max(1.0)` centered at `p`), ensure the
root contains `p`, then `insert_into(0, e, p)`. -/
def insertInternalS (cfg : OctreeConfig) (fuel : ℕ) (nodes : List ONode)
    (m : ℕ → Option ℕ) (e : ℕ) (p : Vec3) :
    Option (List ONode × (ℕ → Option ℕ)) :=
  let nodes0 := if nodes.isEmpty then
    [ONode.mk ⟨p, max cfg.minHalfSize 1⟩ 0 none []] else nodes
  match growLoop cfg fuel nodes0 m p with
  | none => none
  | some (nodes1, m1) => octRun cfg fuel nodes1 m1 [.ins 0 e p]

namespace Octree

/-- `Octree::insert_internal`. -/
def insertInternal (oc : Octree) (e : ℕ) (p : Vec3) : Option Octree :=
  match insertInternalS oc.cfg (octFuel oc.cfg oc.nodes) oc.nodes oc.entityLeaf e p with
  | none => none
  | some (nodes, m) => some { oc with nodes := nodes, entityLeaf := m }

/-- `Octree::build_from_entities`: clear, compute the snapshot's bounds and a
padded cubical root, then insert every pair through the generic insertion
path; finally mark `built`.  On the empty snapshot, create the tiny root
(center 0, half-extent 1) and mark `built`. -/
def buildFromEntities (oc : Octree) (entities : List (ℕ × Vec3)) : Option Octree :=
  match entities with
  | [] =>
    some { oc with nodes := [ONode.mk ⟨⟨0, 0, 0⟩, 1⟩ 0 none []],
                   entityLeaf := fun _ => none, built := true }
  | e0 :: rest =>
    let lo := rest.foldl (fun acc ep => acc.minv ep.2) e0.2
    let hi := rest.foldl (fun acc ep => acc.maxv ep.2) e0.2
    let center : Vec3 :=
      ⟨qhalf (qadd lo.x hi.x), qhalf (qadd lo.y hi.y), qhalf (qadd lo.z hi.z)⟩
    let half0 := max (max (qhalf (qsub hi.x lo.x)) (qhalf (qsub hi.y lo.y)))
      (qhalf (qsub hi.z lo.z))
    let half := max (qadd half0 oc.cfg.initialPadding) oc.cfg.minHalfSize
    let start : Octree := { oc with nodes := [ONode.mk ⟨center, half⟩ 0 none []],
                                    entityLeaf := fun _ => none }
    match (e0 :: rest).foldlM (fun (st : Octree) ep => st.insertInternal ep.1 ep.2)
        start with
    | none => none
    | some st => some { st with built := true }

/-- `Octree::remove_internal`: drop the reverse-map entry and `swap_remove`
the pair from the owning leaf's bucket (nodes are never merged). -/
def removeInternal (oc : Octree) (e : ℕ) : Option Octree :=
  match oc.entityLeaf e with
  | none => some oc
  | some leaf =>
    let m1 : ℕ → Option ℕ := fun k => if k = e then none else oc.entityLeaf k
    match oc.nodes[leaf]? with
    | none => none
    | some n =>
      match n.bucket.findIdx? (fun ep => ep.1 = e) with
      | some i =>
        let n' : ONode := { n with bucket := swapRemove n.bucket i }
        some { oc with nodes := oc.nodes.set leaf n', entityLeaf := m1 }
      | none => some { oc with entityLeaf := m1 }

/-- `Octree::update_internal`: in-place position update while the point still
fits the owning leaf's cube inflated by `loose_padding`; otherwise
remove-then-insert.  Unknown identifiers fall through to an insert. -/
def updateInternal (oc : Octree) (e : ℕ) (p : Vec3) : Option Octree :=
  match oc.entityLeaf e with
  | none => oc.insertInternal e p
  | some leaf =>
    match oc.nodes[leaf]? with
    | none => none
    | some n =>
      if n.bounds.containsP p oc.cfg.loosePadding then
        match n.bucket.findIdx? (fun ep => ep.1 = e) with
        | some i =>
          match n.bucket[i]? with
          | some ep =>
            let n' : ONode := { n with bucket := n.bucket.set i (ep.1, p) }
            some { oc with nodes := oc.nodes.set leaf n' }
          | none => none
        | none => some oc
      else
        match oc.removeInternal e with
        | none => none
        | some oc1 => oc1.insertInternal e p

/-- `Octree::prepare` (trait impl): only initializes once — returns
immediately when already `built`. -/
def prepare (oc : Octree) (entities : List (ℕ × Vec3)) : Option Octree :=
  if oc.built then some oc else oc.buildFromEntities entities

end Octree

/-- The iterative depth-first query loop of `Octree::entities_in_radius`:
explicit stack of node indices (children pushed in order, popped LIFO),
pruning by the cube/sphere test, exact inclusive filter at leaves.  One unit
of fuel per popped index. -/
def octQueryLoop (nodes : List ONode) (s : Vec3) (r : ℚ) :
    ℕ → List ℕ → List ℕ → Option (List ℕ)
  | _, [], out => some out
  | 0, _ :: _, _ => none
  | fuel + 1, idx :: rest, out =>
    match nodes[idx]? with
    | none => none
    | some n =>
      if n.bounds.intersectsSphereC s r then
        match n.children with
        | some cs => octQueryLoop nodes s r fuel (cs.reverse ++ rest) out
        | none =>
          octQueryLoop nodes s r fuel rest
            (out ++ n.bucket.filterMap fun ep =>
              if inRadiusB ep.2 s r then some ep.1 else none)
      else octQueryLoop nodes s r fuel rest out

namespace Octree

/-- Query fuel: on the tree-shaped arenas the algorithm builds, each arena
node is popped at most once, so a linear bound suffices. -/
def queryFuel (oc : Octree) : ℕ := 9 * oc.nodes.length + 9

/-- `Octree::entities_in_radius` (trait impl): empty result when not built
(or the arena is empty), otherwise the stack-based traversal from the root. -/
def entitiesInRadius (oc : Octree) (samplePoint : Vec3) (radius : ℚ) :
    Option (List ℕ) :=
  if !oc.built || oc.nodes.isEmpty then some []
  else octQueryLoop oc.nodes samplePoint radius oc.queryFuel [0] []

/-- `Octree::supports_incremental`. -/
def supportsIncremental (_oc : Octree) : Bool := true

/-- `Octree::insert_entity` (trait impl): bootstrap from the single pair when
never built, else the incremental insert. -/
def insertEntity (oc : Octree) (e : ℕ) (p : Vec3) : Option Octree :=
  if oc.built then oc.insertInternal e p else oc.buildFromEntities [(e, p)]

/-- `Octree::remove_entity` (trait impl): no-op when never built. -/
def removeEntity (oc : Octree) (e : ℕ) : Option Octree :=
  if oc.built then oc.removeInternal e else some oc

/-- `Octree::update_entity` (trait impl): bootstrap from the single pair when
never built, else the incremental update. -/
def updateEntity (oc : Octree) (e : ℕ) (p : Vec3) : Option Octree :=
  if oc.built then oc.updateInternal e p else oc.buildFromEntities [(e, p)]

end Octree

/-! ### Concrete octree scenarios

The incremental paths are exercised on explicit inputs.  Intermediate
states are materialized as literals so each evaluation step is a small
definitional computation. -/

/-- The Octree state produced by `build_from_entities [(0, (0,0,0))]` with the
default configuration (root cube: center 0, half-extent `0 + initial_padding
= 1`). -/
def ocSingle : Octree :=
  ⟨OctreeConfig.default, true,
   [ONode.mk ⟨⟨0, 0, 0⟩, 1⟩ 0 none [(0, ⟨0, 0, 0⟩)]],
   fun k => if k = 0 then some 0 else none⟩

theorem build_single_eq :
    (Octree.new OctreeConfig.default).buildFromEntities [(0, ⟨0, 0, 0⟩)] =
      some ocSingle := by rfl

/-- The arena after incrementally inserting `(1, (16/5, 0, 0))` into
`ocSingle`: one root-growth iteration (new root at center `(1,1,1)` with
half-extent 2, the old root demoted into octant 0, slot 2 after the swaps)
followed by the descent into octant 1 (center `(2,0,0)`). -/
def arenaGrown : List ONode :=
  [ONode.mk ⟨⟨1, 1, 1⟩, 2⟩ 0 (some [2, 3, 4, 5, 6, 7, 8, 9]) [],
   ONode.mk ⟨⟨0, 0, 0⟩, 1⟩ 1 none [],
   ONode.mk ⟨⟨0, 0, 0⟩, 1⟩ 0 none [(0, ⟨0, 0, 0⟩)],
   ONode.mk ⟨⟨2, 0, 0⟩, 1⟩ 1 none [(1, ⟨mkRat 16 5, 0, 0⟩)],
   ONode.mk ⟨⟨0, 2, 0⟩, 1⟩ 1 none [],
   ONode.mk ⟨⟨2, 2, 0⟩, 1⟩ 1 none [],
   ONode.mk ⟨⟨0, 0, 2⟩, 1⟩ 1 none [],
   ONode.mk ⟨⟨2, 0, 2⟩, 1⟩ 1 none [],
   ONode.mk ⟨⟨0, 2, 2⟩, 1⟩ 1 none [],
   ONode.mk ⟨⟨2, 2, 2⟩, 1⟩ 1 none []]

set_option maxHeartbeats 4000000 in
theorem insert_far_projs :
    (ocSingle.insertEntity 1 ⟨mkRat 16 5, 0, 0⟩).map
      (fun oc => (oc.built, oc.nodes)) = some (true, arenaGrown) := by rfl

theorem query_grown_small_radius :
    octQueryLoop arenaGrown ⟨mkRat 16 5, 0, 0⟩ (mkRat 1 10)
      (9 * arenaGrown.length + 9) [0] [] = some [] := by rfl

/-- Incremental insert of `(1, (13/10, 0, 0))` into `ocSingle` (no growth:
`13/10 ≤ 1 + 1/2`), then a query at `(29/20, 0, 0)` with radius `3/20`:
the root cube `[-1,1]³` fails the pruning test, so nothing is returned —
although entity 1 sits exactly at distance `3/20`. -/
theorem incremental_misses_loose_point :
    ((ocSingle.insertEntity 1 ⟨mkRat 13 10, 0, 0⟩).bind
      (fun oc => oc.entitiesInRadius ⟨mkRat 29 20, 0, 0⟩ (mkRat 3 20))) = some [] := by
  rfl

/-- A fresh full rebuild from the same final snapshot returns entity 1 for
the very same query (root recentered at `13/20` with half-extent `33/20`). -/
theorem rebuild_finds_loose_point :
    (((Octree.new OctreeConfig.default).buildFromEntities
      [(0, ⟨0, 0, 0⟩), (1, ⟨mkRat 13 10, 0, 0⟩)]).bind
      (fun oc => oc.entitiesInRadius ⟨mkRat 29 20, 0, 0⟩ (mkRat 3 20))) = some [1] := by
  rfl

theorem loose_point_is_in_radius :
    inRadiusB ⟨mkRat 13 10, 0, 0⟩ ⟨mkRat 29 20, 0, 0⟩ (mkRat 3 20) = true := by rfl

theorem far_point_is_in_radius :
    inRadiusB ⟨mkRat 16 5, 0, 0⟩ ⟨mkRat 16 5, 0, 0⟩ (mkRat 1 10) = true := by rfl

/-- After the growth insert, the (padded) root cube does contain the far
point — the root-growth loop itself worked. -/
theorem grown_root_contains_far_point :
    (arenaGrown.head?.map fun n =>
      n.bounds.containsP ⟨mkRat 16 5, 0, 0⟩ OctreeConfig.default.loosePadding) =
      some true := by rfl

/-! ### Empty-snapshot and pre-prepare behavior (C3 / C8) -/

/-- `Bvh::prepare` on the empty snapshot panics (`split_node` asserts
`!entities.is_empty()`), modelled as `none` — for any configuration. -/
theorem bvh_prepare_empty_panics (b : Bvh) : b.prepare [] = none := by
  unfold Bvh.prepare splitNode
  rfl

/-- Modelled from the spec: the naive algorithm prepared with the empty
snapshot scans nothing. -/
theorem naive_prepare_empty_query (n : Naive) (s : Vec3) (r : ℚ) :
    (n.prepare []).entitiesInRadius s r = [] := by rfl

/-- The Octree built from the empty snapshot answers every query with the
empty list (the tiny root's bucket is empty). -/
theorem octree_prepare_empty_query (cfg : OctreeConfig) (oc : Octree)
    (hprep : (Octree.new cfg).prepare [] = some oc) (s : Vec3) (r : ℚ) :
    oc.entitiesInRadius s r = some [] := by
  have hoc : oc = { Octree.new cfg with
      nodes := [ONode.mk ⟨⟨0, 0, 0⟩, 1⟩ 0 none []],
      entityLeaf := fun _ => none, built := true } := by
    unfold Octree.prepare at hprep
    rw [if_neg (by simp [Octree.new])] at hprep
    unfold Octree.buildFromEntities at hprep
    injection hprep with h
    exact h.symm
  subst hoc
  unfold Octree.entitiesInRadius
  rw [if_neg (by simp)]
  show octQueryLoop [ONode.mk ⟨⟨0, 0, 0⟩, 1⟩ 0 none []] s r 18 [0] [] = some []
  have hstep : octQueryLoop [ONode.mk ⟨⟨0, 0, 0⟩, 1⟩ 0 none []] s r 18 [0] [] =
      if (ONode.mk ⟨⟨0, 0, 0⟩, 1⟩ 0 none []).bounds.intersectsSphereC s r then
        octQueryLoop [ONode.mk ⟨⟨0, 0, 0⟩, 1⟩ 0 none []] s r 17 []
          ([] ++ List.filterMap
            (fun ep : ℕ × Vec3 => if inRadiusB ep.2 s r then some ep.1 else none) [])
      else octQueryLoop [ONode.mk ⟨⟨0, 0, 0⟩, 1⟩ 0 none []] s r 17 [] [] := by
    rfl
  rw [hstep]
  split
  · rfl
  · rfl

/-- Pre-prepare queries: a default `Bvh` (no root) returns no entities. -/
theorem bvh_unprepared_query (s : Vec3) (r : ℚ) :
    Bvh.default.entitiesInRadius s r = [] := by rfl

/-- Pre-prepare queries: a fresh `Octree` (`built == false`) returns no
entities. -/
theorem octree_unprepared_query (cfg : OctreeConfig) (s : Vec3) (r : ℚ) :
    (Octree.new cfg).entitiesInRadius s r = some [] := by rfl

/-- Modelled from the spec: a fresh `Naive` holds no snapshot, so queries
return no entities. -/
theorem naive_unprepared_query (s : Vec3) (r : ℚ) :
    Naive.default.entitiesInRadius s r = [] := by rfl

/-! ## Orchestrator (`src/lib.rs`, `SpatialLookupState`) -/

/-- `self.entities[idx].1 = position`: overwrite the stored position in slot
`idx`.  Rust panics out of bounds; the TrackedSet invariant proved below
keeps all uses in bounds, so the out-of-bounds case (a no-op here) is
unreachable from the public operations. -/
def setPos (l : List (ℕ × Vec3)) (idx : ℕ) (position : Vec3) : List (ℕ × Vec3) :=
  match l[idx]? with
  | some pair => l.set idx (pair.1, position)
  | none => l

/-- Total `Vec::swap` (identity out of bounds; in-bounds under the invariant). -/
def listSwapT {α : Type} (l : List α) (i j : ℕ) : List α :=
  match l[i]?, l[j]? with
  | some a, some b => (l.set i b).set j a
  | _, _ => l

/-- The TrackedSet part of `SpatialLookupState`: the dense `entities` vector
plus the entity → slot `indices` map (`HashMap` modelled as a function). -/
structure TrackedSet where
  entities : List (ℕ × Vec3)
  indices : ℕ → Option ℕ

namespace TrackedSet

/-- `SpatialLookupState::upsert_entity`, restricted to its effect on the
TrackedSet (the forwarding to the algorithm reads but never writes
`entities`/`indices`): overwrite the position of a tracked identifier in
place, or append an untracked one and register its slot. -/
def upsert (ts : TrackedSet) (entity : ℕ) (position : Vec3) : TrackedSet :=
  match ts.indices entity with
  | some idx => { ts with entities := setPos ts.entities idx position }
  | none =>
    { entities := ts.entities ++ [(entity, position)],
      indices := fun k => if k = entity then some ts.entities.length else ts.indices k }

/-- `SpatialLookupState::remove_entity`, restricted to its effect on the
TrackedSet: take the slot out of the map, swap the slot with the last one,
pop, and repair the mapping of the element that moved into the vacated slot
(when one did). -/
def remove (ts : TrackedSet) (entity : ℕ) : TrackedSet :=
  match ts.indices entity with
  | none => ts
  | some idx =>
    let m1 : ℕ → Option ℕ := fun k => if k = entity then none else ts.indices k
    let last := ts.entities.length - 1
    let es2 := (listSwapT ts.entities idx last).dropLast
    if idx ≠ last then
      match es2[idx]? with
      | some pair =>
        { entities := es2, indices := fun k => if k = pair.1 then some idx else m1 k }
      | none => { entities := es2, indices := m1 }
    else { entities := es2, indices := m1 }

/-- The TrackedSet invariant: the mapping is consistent with the dense
sequence in both directions — every slot's identifier maps back to that
slot, and every mapping entry points at a real slot holding its identifier. -/
def Inv (ts : TrackedSet) : Prop :=
  (∀ i pair, ts.entities[i]? = some pair → ts.indices pair.1 = some i) ∧
  (∀ e i, ts.indices e = some i → ∃ pair, ts.entities[i]? = some pair ∧ pair.1 = e)

/-- Consequence of the invariant: each identifier occupies at most one slot. -/
theorem Inv.at_most_once {ts : TrackedSet} (h : ts.Inv) (i j : ℕ)
    (pi pj : ℕ × Vec3) (hi : ts.entities[i]? = some pi)
    (hj : ts.entities[j]? = some pj) (hfst : pi.1 = pj.1) : i = j := by
  have h1 := h.1 i pi hi
  have h2 := h.1 j pj hj
  rw [hfst] at h1
  rw [h1] at h2
  injection h2

end TrackedSet

namespace TrackedSet

theorem getElem?_lt {α : Type} {l : List α} {i : ℕ} {a : α}
    (h : l[i]? = some a) : i < l.length := by
  rcases List.getElem?_eq_some.mp h with ⟨hlt, _⟩
  exact hlt

/-- Pointwise description of the total swap on valid indices. -/
theorem listSwapT_getElem? {α : Type} (l : List α) (i j : ℕ) (a b : α)
    (hi : l[i]? = some a) (hj : l[j]? = some b) (k : ℕ) :
    (listSwapT l i j)[k]? =
      if k = j then some a else if k = i then some b else l[k]? := by
  unfold listSwapT
  rw [hi, hj]
  by_cases hkj : k = j
  · subst hkj
    rw [if_pos rfl, List.getElem?_set_self (by simpa using getElem?_lt hj)]
  · rw [if_neg hkj, List.getElem?_set_ne (fun h => hkj h.symm)]
    by_cases hki : k = i
    · subst hki
      rw [if_pos rfl, List.getElem?_set_self (getElem?_lt hi)]
    · rw [if_neg hki, List.getElem?_set_ne (fun h => hki h.symm)]

/-- `upsert_entity` preserves the TrackedSet invariant. -/
theorem Inv.upsert {ts : TrackedSet} (h : ts.Inv) (e : ℕ) (p : Vec3) :
    (ts.upsert e p).Inv := by
  obtain ⟨h1, h2⟩ := h
  unfold TrackedSet.upsert
  cases hm : ts.indices e with
  | none =>
    constructor
    · intro i pair hget
      simp only [] at hget
      by_cases hi : i < ts.entities.length
      · rw [List.getElem?_append_left hi] at hget
        have := h1 i pair hget
        have hne : pair.1 ≠ e := by
          intro hfst
          rw [hfst] at this
          rw [this] at hm
          exact absurd hm (by simp)
        simp only [if_neg hne]
        exact this
      · rw [List.getElem?_append_right (le_of_not_lt hi)] at hget
        have hi0 : i - ts.entities.length < 1 := by
          have hl := getElem?_lt hget
          simpa using hl
        have hie : i = ts.entities.length := by omega
        subst hie
        rw [Nat.sub_self] at hget
        simp at hget
        show (if pair.1 = e then some ts.entities.length else ts.indices pair.1) =
          some ts.entities.length
        rw [← hget]
        simp
    · intro e' i hmi
      simp only [] at hmi
      by_cases he' : e' = e
      · rw [if_pos he'] at hmi
        injection hmi with hi
        subst he'
        refine ⟨(e', p), ?_, rfl⟩
        rw [← hi]
        exact List.getElem?_concat_length ts.entities (e', p)
      · rw [if_neg he'] at hmi
        obtain ⟨pair, hget, hfst⟩ := h2 e' i hmi
        exact ⟨pair, by rw [List.getElem?_append_left (getElem?_lt hget)]; exact hget, hfst⟩
  | some idx =>
    obtain ⟨pair0, hget0, hfst0⟩ := h2 e idx hm
    have hidx : idx < ts.entities.length := getElem?_lt hget0
    simp only []
    unfold setPos
    rw [hget0]
    constructor
    · intro i pair hget
      by_cases hi : i = idx
      · subst hi
        rw [List.getElem?_set_self hidx] at hget
        injection hget with hp
        rw [← hp]
        show ts.indices pair0.1 = some i
        rw [hfst0, hm]
      · rw [List.getElem?_set_ne (fun hh => hi hh.symm)] at hget
        exact h1 i pair hget
    · intro e' i hmi
      obtain ⟨pair, hget, hfst⟩ := h2 e' i hmi
      by_cases hi : i = idx
      · subst hi
        rw [hget0] at hget
        injection hget with hp
        subst hp
        refine ⟨(pair0.1, p), List.getElem?_set_self hidx, ?_⟩
        rw [← hfst]
      · exact ⟨pair, by rw [List.getElem?_set_ne (fun hh => hi hh.symm)]; exact hget, hfst⟩

end TrackedSet

namespace TrackedSet

/-- `remove_entity` preserves the TrackedSet invariant: swap-with-last plus
the repair of the moved element's mapping keep the map and the dense
sequence consistent. -/
theorem Inv.remove {ts : TrackedSet} (h : ts.Inv) (e : ℕ) : (ts.remove e).Inv := by
  obtain ⟨h1, h2⟩ := h
  unfold TrackedSet.remove
  cases hm : ts.indices e with
  | none => exact ⟨h1, h2⟩
  | some idx =>
    obtain ⟨pair0, hget0, hfst0⟩ := h2 e idx hm
    have hidx : idx < ts.entities.length := getElem?_lt hget0
    have hlast : ts.entities.length - 1 < ts.entities.length := by omega
    obtain ⟨pairL, hgetL⟩ :
        ∃ pL, ts.entities[ts.entities.length - 1]? = some pL := by
      rcases hq : ts.entities[ts.entities.length - 1]? with _ | pL
      · rw [List.getElem?_eq_none_iff] at hq; omega
      · exact ⟨pL, rfl⟩
    have hswap := listSwapT_getElem? ts.entities idx (ts.entities.length - 1)
      pair0 pairL hget0 hgetL
    have hlenswap : (listSwapT ts.entities idx (ts.entities.length - 1)).length =
        ts.entities.length := by
      unfold listSwapT
      rw [hget0, hgetL]
      simp
    have hes2 : ∀ k, ((listSwapT ts.entities idx (ts.entities.length - 1)).dropLast)[k]? =
        if k < ts.entities.length - 1 then
          (listSwapT ts.entities idx (ts.entities.length - 1))[k]? else none := by
      intro k
      rw [List.getElem?_dropLast, hlenswap]
    show (if idx ≠ ts.entities.length - 1 then
        match ((listSwapT ts.entities idx (ts.entities.length - 1)).dropLast)[idx]? with
        | some pair =>
          ({ entities := (listSwapT ts.entities idx (ts.entities.length - 1)).dropLast,
             indices := fun k => if k = pair.1 then some idx else
               if k = e then none else ts.indices k } : TrackedSet)
        | none =>
          { entities := (listSwapT ts.entities idx (ts.entities.length - 1)).dropLast,
            indices := fun k => if k = e then none else ts.indices k }
      else
        { entities := (listSwapT ts.entities idx (ts.entities.length - 1)).dropLast,
          indices := fun k => if k = e then none else ts.indices k }).Inv
    by_cases hil : idx = ts.entities.length - 1
    · rw [if_neg (not_not_intro hil)]
      constructor
      · intro i pair hget
        simp only [] at hget
        rw [hes2 i] at hget
        by_cases hi : i < ts.entities.length - 1
        · rw [if_pos hi, hswap i, if_neg (by omega), if_neg (by omega)] at hget
          have hfi := h1 i pair hget
          show (if pair.1 = e then none else ts.indices pair.1) = some i
          rw [if_neg ?hne]
          · exact hfi
          case hne =>
            intro hfe
            rw [hfe] at hfi
            rw [hfi] at hm
            injection hm with hh
            omega
        · rw [if_neg hi] at hget
          exact absurd hget (by simp)
      · intro e' i hmi
        simp only [] at hmi
        by_cases he' : e' = e
        · rw [if_pos he'] at hmi
          exact absurd hmi (by simp)
        · rw [if_neg he'] at hmi
          obtain ⟨pair, hget, hfst⟩ := h2 e' i hmi
          have hine : i ≠ ts.entities.length - 1 := by
            intro hie
            rw [hie, ← hil, hget0] at hget
            injection hget with hp
            rw [← hp] at hfst
            rw [hfst0] at hfst
            exact he' hfst.symm
          have hilt : i < ts.entities.length := getElem?_lt hget
          refine ⟨pair, ?_, hfst⟩
          rw [hes2 i, if_pos (by omega), hswap i, if_neg hine, if_neg (by omega)]
          exact hget
    · rw [if_pos hil]
      have hidxlt : idx < ts.entities.length - 1 := by omega
      have hes2idx :
          ((listSwapT ts.entities idx (ts.entities.length - 1)).dropLast)[idx]? =
            some pairL := by
        rw [hes2 idx, if_pos hidxlt, hswap idx, if_neg hil, if_pos rfl]
      rw [hes2idx]
      have hL1 := h1 _ pairL hgetL
      constructor
      · intro i pair hget
        simp only [] at hget
        rw [hes2 i] at hget
        by_cases hi : i < ts.entities.length - 1
        · rw [if_pos hi, hswap i, if_neg (by omega)] at hget
          by_cases hiidx : i = idx
          · rw [if_pos hiidx] at hget
            injection hget with hp
            show (if pair.1 = pairL.1 then some idx else
              if pair.1 = e then none else ts.indices pair.1) = some i
            rw [← hp, if_pos rfl, hiidx]
          · rw [if_neg hiidx] at hget
            have hfi := h1 i pair hget
            show (if pair.1 = pairL.1 then some idx else
              if pair.1 = e then none else ts.indices pair.1) = some i
            rw [if_neg ?hne1, if_neg ?hne2]
            · exact hfi
            case hne1 =>
              intro hfe
              rw [hfe, hL1] at hfi
              injection hfi with hh
              omega
            case hne2 =>
              intro hfe
              rw [hfe, hm] at hfi
              injection hfi with hh
              exact hiidx hh.symm
        · rw [if_neg hi] at hget
          exact absurd hget (by simp)
      · intro e' i hmi
        simp only [] at hmi
        by_cases heL : e' = pairL.1
        · rw [if_pos heL] at hmi
          injection hmi with hi
          subst hi
          exact ⟨pairL, hes2idx, heL.symm⟩
        · rw [if_neg heL] at hmi
          by_cases he' : e' = e
          · rw [if_pos he'] at hmi
            exact absurd hmi (by simp)
          · rw [if_neg he'] at hmi
            obtain ⟨pair, hget, hfst⟩ := h2 e' i hmi
            have hine : i ≠ ts.entities.length - 1 := by
              intro hie
              rw [hie, hgetL] at hget
              injection hget with hp
              rw [← hp] at hfst
              exact heL hfst.symm
            have hinei : i ≠ idx := by
              intro hie
              rw [hie, hget0] at hget
              injection hget with hp
              rw [← hp] at hfst
              rw [hfst0] at hfst
              exact he' hfst.symm
            have hilt : i < ts.entities.length := getElem?_lt hget
            refine ⟨pair, ?_, hfst⟩
            rw [hes2 i, if_pos (by omega), hswap i, if_neg hine, if_neg hinei]
            exact hget

end TrackedSet

/-- `SpatialLookupState`, specialized to the `Octree` algorithm (the
orchestrator stores one boxed algorithm; C4 concerns the Octree instance).
Fields follow `src/lib.rs`. -/
structure LookupStateOct where
  entities : List (ℕ × Vec3)
  indices : ℕ → Option ℕ
  algorithm : Octree
  initialized : Bool
  fullRebuildRequested : Bool

namespace LookupStateOct

/-- `SpatialLookupState::with_algorithm`. -/
def withAlgorithm (alg : Octree) : LookupStateOct :=
  ⟨[], fun _ => none, alg, false, true⟩

/-- `SpatialLookupState::entities_in_radius` — delegates to the algorithm. -/
def entitiesInRadius (st : LookupStateOct) (samplePoint : Vec3) (radius : ℚ) :
    Option (List ℕ) :=
  st.algorithm.entitiesInRadius samplePoint radius

/-- `SpatialLookupState::upsert_entity` for an incremental algorithm
(`Octree::supports_incremental` is `true`): update the TrackedSet, then
forward to `update_entity` / `insert_entity` when initialized, else request a
full rebuild. -/
def upsertEntity (st : LookupStateOct) (entity : ℕ) (position : Vec3) :
    Option LookupStateOct :=
  match st.indices entity with
  | some idx =>
    let es' := setPos st.entities idx position
    if st.initialized && st.algorithm.supportsIncremental then
      match st.algorithm.updateEntity entity position with
      | none => none
      | some alg => some { st with entities := es', algorithm := alg }
    else some { st with entities := es', fullRebuildRequested := true }
  | none =>
    let es' := st.entities ++ [(entity, position)]
    let idx' := fun k => if k = entity then some st.entities.length else st.indices k
    if st.initialized && st.algorithm.supportsIncremental then
      match st.algorithm.insertEntity entity position with
      | none => none
      | some alg => some { st with entities := es', indices := idx', algorithm := alg }
    else some { st with entities := es', indices := idx', fullRebuildRequested := true }

/-- `SpatialLookupState::prepare_algorithm`: on the first call or when a full
rebuild is pending, call the algorithm's `prepare` with the entire tracked
set, mark initialized and clear the flag; otherwise a no-op. -/
def prepareAlgorithm (st : LookupStateOct) : Option LookupStateOct :=
  if !st.initialized || st.fullRebuildRequested then
    match st.algorithm.prepare st.entities with
    | none => none
    | some alg =>
      some { st with algorithm := alg, initialized := true,
                     fullRebuildRequested := false }
  else some st

/-- `SpatialLookupState::request_full_rebuild`. -/
def requestFullRebuild (st : LookupStateOct) : LookupStateOct :=
  { st with fullRebuildRequested := true }

end LookupStateOct

/-! ### Octree correctness: geometry of cubes -/

/-- Membership of a point in an (unpadded) cube. -/
def inCube (p : Vec3) (c : AabbCube) : Prop :=
  |p.x - c.center.x| ≤ c.half ∧ |p.y - c.center.y| ≤ c.half ∧ |p.z - c.center.z| ≤ c.half

theorem containsP_iff (c : AabbCube) (p : Vec3) (padding : ℚ) :
    c.containsP p padding = true ↔
      |p.x - c.center.x| ≤ c.half + padding ∧ |p.y - c.center.y| ≤ c.half + padding ∧
        |p.z - c.center.z| ≤ c.half + padding := by
  simp [AabbCube.containsP, qabs_eq, qsub_eq, qadd_eq, and_assoc]

/-- A point of the unpadded cube is accepted by `contains` with any
non-negative padding. -/
theorem containsP_of_inCube (c : AabbCube) (p : Vec3) (padding : ℚ)
    (hp : inCube p c) (hpad : 0 ≤ padding) : c.containsP p padding = true := by
  rw [containsP_iff]
  obtain ⟨h1, h2, h3⟩ := hp
  exact ⟨by linarith, by linarith, by linarith⟩

/-- The cube/sphere pruning test accepts whenever some point of the cube is
within the radius (conservativeness of `intersects_sphere`). -/
theorem intersectsSphereC_of_inCube (c : AabbCube) (p s : Vec3) (r : ℚ)
    (hp : inCube p c) (hr : Vec3.dist2 p s ≤ r * r) :
    c.intersectsSphereC s r = true := by
  obtain ⟨h1, h2, h3⟩ := hp
  rw [abs_le] at h1 h2 h3
  have cx := axisContrib_le s.x (c.center.x - c.half) (c.center.x + c.half) p.x
    (by linarith [h1.1]) (by linarith [h1.2])
  have cy := axisContrib_le s.y (c.center.y - c.half) (c.center.y + c.half) p.y
    (by linarith [h2.1]) (by linarith [h2.2])
  have cz := axisContrib_le s.z (c.center.z - c.half) (c.center.z + c.half) p.z
    (by linarith [h3.1]) (by linarith [h3.2])
  have hd : Vec3.dist2 p s =
      (s.x - p.x) ^ 2 + (s.y - p.y) ^ 2 + (s.z - p.z) ^ 2 := by
    rw [Vec3.dist2_unfold]; ring
  unfold AabbCube.intersectsSphereC
  rw [decide_eq_true_iff]
  simp only [qadd_eq, qsub_eq, qmul_eq]
  linarith

/-- The child octant produced by `split_leaf` for index `i`. -/
def childCube (bounds : AabbCube) (i : ℕ) : AabbCube :=
  ⟨childCenter bounds i, qhalf bounds.half⟩

/-- Descending by `child_index` keeps the point inside the chosen octant. -/
theorem inCube_childCube_childIndexOf (b : AabbCube) (p : Vec3)
    (hp : inCube p b) (hh : 0 ≤ b.half) :
    inCube p (childCube b (childIndexOf b.center p)) := by
  obtain ⟨h1, h2, h3⟩ := hp
  rw [abs_le] at h1 h2 h3
  unfold childCube childCenter childIndexOf
  by_cases hx : b.center.x ≤ p.x <;> by_cases hy : b.center.y ≤ p.y <;>
    by_cases hz : b.center.z ≤ p.z <;>
    simp only [hx, hy, hz, if_true, if_false, qhalf_eq, qadd_eq] <;>
    refine ⟨?_, ?_, ?_⟩ <;> rw [abs_le] <;> push_neg at * <;>
    constructor <;> simp only [] <;> norm_num <;> linarith

/-- Every octant is contained in its parent cube. -/
theorem inCube_of_childCube (b : AabbCube) (i : ℕ) (q : Vec3)
    (hq : inCube q (childCube b i)) (hh : 0 ≤ b.half) : inCube q b := by
  obtain ⟨h1, h2, h3⟩ := hq
  unfold childCube childCenter at h1 h2 h3
  simp only [qhalf_eq, qadd_eq] at h1 h2 h3
  refine ⟨?_, ?_, ?_⟩
  · rcases abs_le.mp h1 with ⟨ha, hb⟩
    rw [abs_le]
    split at ha <;> split at hb <;> constructor <;> first
      | linarith | (rename_i hh1 hh2; exact absurd hh1 hh2)
  · rcases abs_le.mp h2 with ⟨ha, hb⟩
    rw [abs_le]
    split at ha <;> split at hb <;> constructor <;> first
      | linarith | (rename_i hh1 hh2; exact absurd hh1 hh2)
  · rcases abs_le.mp h3 with ⟨ha, hb⟩
    rw [abs_le]
    split at ha <;> split at hb <;> constructor <;> first
      | linarith | (rename_i hh1 hh2; exact absurd hh1 hh2)

/-! ### Octree correctness: arena structure -/

/-- `Desc nodes i j`: node `j` is in the subtree rooted at node `i` (following
`children` indices). -/
inductive Desc (nodes : List ONode) : ℕ → ℕ → Prop where
  | refl (i : ℕ) : Desc nodes i i
  | step {i c j : ℕ} {n : ONode} {cs : List ℕ} {k : ℕ} :
      nodes[i]? = some n → n.children = some cs → cs[k]? = some c →
      Desc nodes c j → Desc nodes i j

theorem Desc.trans_desc {nodes : List ONode} {i j l : ℕ}
    (h1 : Desc nodes i j) (h2 : Desc nodes j l) : Desc nodes i l := by
  induction h1 with
  | refl => exact h2
  | step hn hcs hc _ ih => exact Desc.step hn hcs hc (ih h2)

/-- Descents survive any arena change that keeps every existing node's
children list (a node may gain children it did not have). -/
theorem Desc.congr {nodes nodes' : List ONode}
    (hsame : ∀ (i : ℕ) (n : ONode), nodes[i]? = some n →
      ∃ n' : ONode, nodes'[i]? = some n' ∧
        ∀ cs : List ℕ, n.children = some cs → n'.children = some cs) {i j : ℕ}
    (h : Desc nodes i j) : Desc nodes' i j := by
  induction h with
  | refl => exact Desc.refl _
  | step hn hcs hc _ ih =>
    obtain ⟨n', hn', hch⟩ := hsame _ _ hn
    exact Desc.step hn' (hch _ hcs) hc ih

/-- All (entity, position) pairs bucketed anywhere in the arena. -/
def bucketsJoin (nodes : List ONode) : List (ℕ × Vec3) :=
  (nodes.map ONode.bucket).flatten

/-- The pairs still pending in a worklist. -/
def pendingPairs (ops : List OctOp) : List (ℕ × Vec3) :=
  ops.filterMap fun op =>
    match op with
    | .ins _ e p => some (e, p)
    | .split _ => none

theorem mem_bucketsJoin {nodes : List ONode} {ep : ℕ × Vec3} :
    ep ∈ bucketsJoin nodes ↔ ∃ (j : ℕ) (n : ONode), nodes[j]? = some n ∧ ep ∈ n.bucket := by
  unfold bucketsJoin
  rw [List.mem_flatten]
  constructor
  · rintro ⟨l, hl, hep⟩
    rw [List.mem_map] at hl
    obtain ⟨n, hn, rfl⟩ := hl
    obtain ⟨j, hj⟩ := List.getElem?_of_mem hn
    exact ⟨j, n, hj, hep⟩
  · rintro ⟨j, n, hj, hep⟩
    refine ⟨n.bucket, ?_, hep⟩
    rw [List.mem_map]
    exact ⟨n, List.mem_iff_getElem?.mpr ⟨j, hj⟩, rfl⟩

theorem perm_rotate {α : Type} (a b c : List α) :
    ((a ++ c) ++ b).Perm ((b ++ c) ++ a) := by
  have h1 : ((a ++ c) ++ b).Perm (b ++ (a ++ c)) := List.perm_append_comm
  have h2 : (b ++ (a ++ c)).Perm (b ++ (c ++ a)) :=
    List.Perm.append_left b List.perm_append_comm
  have h3 : b ++ (c ++ a) = (b ++ c) ++ a := (List.append_assoc b c a).symm
  exact (h1.trans h2).trans (h3 ▸ List.Perm.refl _)

/-- Replacing one node redistributes its bucket in the flattened contents. -/
theorem bucketsJoin_set_perm (nodes : List ONode) (i : ℕ) (n n' : ONode)
    (hget : nodes[i]? = some n) :
    (bucketsJoin (nodes.set i n') ++ n.bucket).Perm (bucketsJoin nodes ++ n'.bucket) := by
  induction nodes generalizing i with
  | nil => simp at hget
  | cons hd tl ih =>
    cases i with
    | zero =>
      simp at hget
      subst hget
      show ((n'.bucket ++ (tl.map ONode.bucket).flatten) ++ hd.bucket).Perm
        ((hd.bucket ++ (tl.map ONode.bucket).flatten) ++ n'.bucket)
      exact perm_rotate n'.bucket hd.bucket _
    | succ i' =>
      simp only [List.getElem?_cons_succ] at hget
      have hperm := ih i' hget
      show ((hd.bucket ++ ((tl.set i' n').map ONode.bucket).flatten) ++ n.bucket).Perm
        ((hd.bucket ++ (tl.map ONode.bucket).flatten) ++ n'.bucket)
      have e1 : (hd.bucket ++ ((tl.set i' n').map ONode.bucket).flatten) ++ n.bucket
          = hd.bucket ++ (((tl.set i' n').map ONode.bucket).flatten ++ n.bucket) :=
        List.append_assoc _ _ _
      have h2 : (hd.bucket ++ (((tl.set i' n').map ONode.bucket).flatten ++ n.bucket)).Perm
          (hd.bucket ++ ((tl.map ONode.bucket).flatten ++ n'.bucket)) :=
        List.Perm.append_left hd.bucket hperm
      have e3 : hd.bucket ++ ((tl.map ONode.bucket).flatten ++ n'.bucket)
          = (hd.bucket ++ (tl.map ONode.bucket).flatten) ++ n'.bucket :=
        (List.append_assoc _ _ _).symm
      exact (e1 ▸ h2).trans (e3 ▸ List.Perm.refl _)

/-- Appending fresh empty-bucket nodes does not change the contents. -/
theorem bucketsJoin_append_empty (nodes : List ONode) (extra : List ONode)
    (hempty : ∀ n ∈ extra, n.bucket = []) :
    bucketsJoin (nodes ++ extra) = bucketsJoin nodes := by
  unfold bucketsJoin
  rw [List.map_append, List.flatten_append]
  have : (extra.map ONode.bucket).flatten = [] := by
    rw [List.flatten_eq_nil_iff]
    intro l hl
    rw [List.mem_map] at hl
    obtain ⟨n, hn, rfl⟩ := hl
    exact hempty n hn
  rw [this, List.append_nil]

/-- Structural invariant of arenas produced by `build_from_entities`:
well-formed octant children, buckets covered by their node's cube, interior
nodes hold nothing, non-negative half-extents, and every node reachable from
the root. -/
structure GoodArena (nodes : List ONode) : Prop where
  oct : ∀ (i : ℕ) (n : ONode) (cs : List ℕ), nodes[i]? = some n →
    n.children = some cs →
    cs.length = 8 ∧ ∀ (k c : ℕ), cs[k]? = some c →
      ∃ m : ONode, nodes[c]? = some m ∧ m.bounds = childCube n.bounds k
  bk : ∀ (i : ℕ) (n : ONode), nodes[i]? = some n → ∀ ep ∈ n.bucket, inCube ep.2 n.bounds
  leafbk : ∀ (i : ℕ) (n : ONode), nodes[i]? = some n → n.children ≠ none → n.bucket = []
  posh : ∀ (i : ℕ) (n : ONode), nodes[i]? = some n → 0 ≤ n.bounds.half
  reach : ∀ i : ℕ, i < nodes.length → Desc nodes 0 i

/-- Per-operation precondition: pending inserts target a live node whose
(unpadded) cube contains the point. -/
def opOK (nodes : List ONode) : OctOp → Prop
  | .ins idx _ p => ∃ n : ONode, nodes[idx]? = some n ∧ inCube p n.bounds
  | .split _ => True

def OpsOK (nodes : List ONode) (ops : List OctOp) : Prop := ∀ op ∈ ops, opOK nodes op

/-- Bounds-preserving lookup simulation between two arenas. -/
def BoundsFrame (nodes nodes' : List ONode) : Prop :=
  ∀ (i : ℕ) (n : ONode), nodes[i]? = some n →
    ∃ n' : ONode, nodes'[i]? = some n' ∧ n'.bounds = n.bounds

theorem BoundsFrame.refl (nodes : List ONode) : BoundsFrame nodes nodes :=
  fun _ n h => ⟨n, h, Eq.refl n.bounds⟩

theorem BoundsFrame.trans {a b c : List ONode} (h1 : BoundsFrame a b)
    (h2 : BoundsFrame b c) : BoundsFrame a c := by
  intro i n hget
  obtain ⟨n', hn', hb'⟩ := h1 i n hget
  obtain ⟨n'', hn'', hb''⟩ := h2 i n' hn'
  exact ⟨n'', hn'', by rw [hb'', hb']⟩

theorem OpsOK.frame {nodes nodes' : List ONode} (hf : BoundsFrame nodes nodes')
    {ops : List OctOp} (h : OpsOK nodes ops) : OpsOK nodes' ops := by
  intro op hop
  have := h op hop
  cases op with
  | ins idx e p =>
    obtain ⟨n, hn, hc⟩ := this
    obtain ⟨n', hn', hb⟩ := hf idx n hn
    exact ⟨n', hn', by rw [hb]; exact hc⟩
  | split idx => trivial

theorem OpsOK.tail {nodes : List ONode} {op : OctOp} {ops : List OctOp}
    (h : OpsOK nodes (op :: ops)) : OpsOK nodes ops :=
  fun o ho => h o (List.mem_cons_of_mem op ho)

theorem lookup_set {nodes : List ONode} {idx : ℕ} {n : ONode}
    (hget : nodes[idx]? = some n) (n' : ONode) (k : ℕ) :
    (nodes.set idx n')[k]? = if k = idx then some n' else nodes[k]? := by
  by_cases hk : k = idx
  · subst hk
    rw [if_pos rfl, List.getElem?_set_self (TrackedSet.getElem?_lt hget)]
  · rw [if_neg hk, List.getElem?_set_ne (fun h => hk h.symm)]

/-- Pushing a covered pair onto a leaf's bucket preserves the invariant. -/
theorem good_set_bucket {nodes : List ONode} {idx : ℕ} {n : ONode} (e : ℕ) (p : Vec3)
    (hget : nodes[idx]? = some n) (hleaf : n.children = none)
    (hcube : inCube p n.bounds) (hg : GoodArena nodes) :
    GoodArena (nodes.set idx { n with bucket := n.bucket ++ [(e, p)] }) := by
  refine ⟨?_, ?_, ?_, ?_, ?_⟩
  · intro i m cs hm hcs
    rw [lookup_set hget] at hm
    by_cases hi : i = idx
    · rw [if_pos hi] at hm
      injection hm with hm
      subst hm
      exact absurd hcs (by simp [hleaf])
    · rw [if_neg hi] at hm
      obtain ⟨hlen, htargets⟩ := hg.oct i m cs hm hcs
      refine ⟨hlen, ?_⟩
      intro k c hkc
      obtain ⟨t, ht, hb⟩ := htargets k c hkc
      rw [lookup_set hget]
      by_cases hc : c = idx
      · subst hc
        rw [if_pos rfl]
        rw [hget] at ht
        injection ht with ht
        subst ht
        exact ⟨_, rfl, hb⟩
      · rw [if_neg hc]
        exact ⟨t, ht, hb⟩
  · intro i m hm ep hep
    rw [lookup_set hget] at hm
    by_cases hi : i = idx
    · rw [if_pos hi] at hm
      injection hm with hm
      subst hm
      rcases List.mem_append.mp hep with hold | hnew
      · exact hg.bk idx n hget ep hold
      · simp at hnew
        rw [hnew]
        exact hcube
    · rw [if_neg hi] at hm
      exact hg.bk i m hm ep hep
  · intro i m hm hch
    rw [lookup_set hget] at hm
    by_cases hi : i = idx
    · rw [if_pos hi] at hm
      injection hm with hm
      subst hm
      exact absurd hleaf hch
    · rw [if_neg hi] at hm
      exact hg.leafbk i m hm hch
  · intro i m hm
    rw [lookup_set hget] at hm
    by_cases hi : i = idx
    · rw [if_pos hi] at hm
      injection hm with hm
      subst hm
      exact hg.posh idx n hget
    · rw [if_neg hi] at hm
      exact hg.posh i m hm
  · intro i hi
    rw [List.length_set] at hi
    refine Desc.congr ?_ (hg.reach i hi)
    intro j nn hj
    rw [lookup_set hget]
    by_cases hji : j = idx
    · subst hji
      rw [if_pos rfl]
      rw [hget] at hj
      injection hj with hj
      subst hj
      exact ⟨_, rfl, fun cs hcs => hcs⟩
    · rw [if_neg hji]
      exact ⟨nn, hj, fun cs hcs => hcs⟩

theorem boundsFrame_set_bucket {nodes : List ONode} {idx : ℕ} {n : ONode}
    (hget : nodes[idx]? = some n) (bucket' : List (ℕ × Vec3)) :
    BoundsFrame nodes (nodes.set idx { n with bucket := bucket' }) := by
  intro i m hm
  rw [lookup_set hget]
  by_cases hi : i = idx
  · subst hi
    rw [if_pos rfl]
    rw [hget] at hm
    injection hm with hm
    subst hm
    exact ⟨_, rfl, rfl⟩
  · rw [if_neg hi]
    exact ⟨m, hm, rfl⟩

theorem lookup_splitArena_idx {nodes : List ONode} {idx : ℕ} {n : ONode}
    (hget : nodes[idx]? = some n) :
    ((nodes ++ splitChildren n).set idx (splitParent n nodes.length))[idx]? =
      some (splitParent n nodes.length) := by
  have hidx : idx < nodes.length := TrackedSet.getElem?_lt hget
  rw [List.getElem?_set_self (by simp; omega)]

theorem lookup_splitArena_old {nodes : List ONode} {idx : ℕ} {n : ONode}
    (_hget : nodes[idx]? = some n) (k : ℕ) (hk : k < nodes.length) (hkidx : k ≠ idx) :
    ((nodes ++ splitChildren n).set idx (splitParent n nodes.length))[k]? = nodes[k]? := by
  rw [List.getElem?_set_ne (fun h => hkidx h.symm), List.getElem?_append_left hk]

theorem lookup_splitArena_new {nodes : List ONode} {idx : ℕ} {n : ONode}
    (hget : nodes[idx]? = some n) (j : ℕ) (hj : j < 8) :
    ((nodes ++ splitChildren n).set idx (splitParent n nodes.length))[nodes.length + j]? =
      some (ONode.mk ⟨childCenter n.bounds j, qhalf n.bounds.half⟩ (n.depth + 1) none []) := by
  have hidx : idx < nodes.length := TrackedSet.getElem?_lt hget
  rw [List.getElem?_set_ne (by omega), List.getElem?_append_right (by omega)]
  unfold splitChildren
  simp [hj]

/-- Generic description of any slot in the split arena. -/
theorem lookup_splitArena {nodes : List ONode} {idx : ℕ} {n : ONode}
    (hget : nodes[idx]? = some n) (k : ℕ) :
    ((nodes ++ splitChildren n).set idx (splitParent n nodes.length))[k]? =
      if k = idx then some (splitParent n nodes.length)
      else if k < nodes.length then nodes[k]?
      else if k < nodes.length + 8 then
        some (ONode.mk ⟨childCenter n.bounds (k - nodes.length), qhalf n.bounds.half⟩
          (n.depth + 1) none [])
      else none := by
  by_cases h1 : k = idx
  · subst h1
    rw [if_pos rfl]
    exact lookup_splitArena_idx hget
  · rw [if_neg h1]
    by_cases h2 : k < nodes.length
    · rw [if_pos h2]
      exact lookup_splitArena_old hget k h2 h1
    · rw [if_neg h2]
      by_cases h3 : k < nodes.length + 8
      · rw [if_pos h3]
        have hk : k = nodes.length + (k - nodes.length) := by omega
        rw [hk]
        have := lookup_splitArena_new hget (k - nodes.length) (by omega)
        rw [this]
        have : nodes.length + (k - nodes.length) - nodes.length = k - nodes.length := by omega
        rw [this]
      · rw [if_neg h3]
        rw [List.getElem?_eq_none_iff]
        simp [splitChildren]
        omega

theorem boundsFrame_splitArena {nodes : List ONode} {idx : ℕ} {n : ONode}
    (hget : nodes[idx]? = some n) :
    BoundsFrame nodes ((nodes ++ splitChildren n).set idx (splitParent n nodes.length)) := by
  intro i m hm
  have hi : i < nodes.length := TrackedSet.getElem?_lt hm
  by_cases hiidx : i = idx
  · subst hiidx
    rw [hget] at hm
    injection hm with hm
    subst hm
    exact ⟨_, lookup_splitArena_idx hget, rfl⟩
  · exact ⟨m, by rw [lookup_splitArena_old hget i hi hiidx]; exact hm, rfl⟩

/-- Splitting a leaf preserves the arena invariant: the 8 fresh children are
the octants of the split node, the parent's bucket is cleared, and the new
nodes are reachable through the new edges. -/
theorem good_split {nodes : List ONode} {idx : ℕ} {n : ONode}
    (hget : nodes[idx]? = some n) (hleaf : n.children = none) (hg : GoodArena nodes) :
    GoodArena ((nodes ++ splitChildren n).set idx (splitParent n nodes.length)) := by
  have hidx : idx < nodes.length := TrackedSet.getElem?_lt hget
  refine ⟨?_, ?_, ?_, ?_, ?_⟩
  · intro i m cs hm hcs
    rw [lookup_splitArena hget] at hm
    by_cases h1 : i = idx
    · rw [if_pos h1] at hm
      injection hm with hm
      subst hm
      unfold splitParent at hcs
      simp only [] at hcs
      injection hcs with hcs
      subst hcs
      constructor
      · simp
      · intro k c hkc
        simp only [List.getElem?_map] at hkc
        by_cases hk : k < 8
        · rw [List.getElem?_range hk] at hkc
          simp at hkc
          subst hkc
          refine ⟨_, lookup_splitArena_new hget k hk, ?_⟩
          unfold childCube splitParent
          rfl
        · rw [List.getElem?_eq_none (by simpa using hk)] at hkc
          simp at hkc
    · rw [if_neg h1] at hm
      by_cases h2 : i < nodes.length
      · rw [if_pos h2] at hm
        obtain ⟨hlen, htargets⟩ := hg.oct i m cs hm hcs
        refine ⟨hlen, ?_⟩
        intro k c hkc
        obtain ⟨t, ht, hb⟩ := htargets k c hkc
        have hc : c < nodes.length := TrackedSet.getElem?_lt ht
        by_cases hcidx : c = idx
        · subst hcidx
          rw [hget] at ht
          injection ht with ht
          subst ht
          exact ⟨_, lookup_splitArena_idx hget, hb⟩
        · exact ⟨t, by rw [lookup_splitArena_old hget c hc hcidx]; exact ht, hb⟩
      · rw [if_neg h2] at hm
        by_cases h3 : i < nodes.length + 8
        · rw [if_pos h3] at hm
          injection hm with hm
          subst hm
          simp at hcs
        · rw [if_neg h3] at hm
          exact absurd hm (by simp)
  · intro i m hm ep hep
    rw [lookup_splitArena hget] at hm
    by_cases h1 : i = idx
    · rw [if_pos h1] at hm
      injection hm with hm
      subst hm
      simp [splitParent] at hep
    · rw [if_neg h1] at hm
      by_cases h2 : i < nodes.length
      · rw [if_pos h2] at hm
        exact hg.bk i m hm ep hep
      · rw [if_neg h2] at hm
        by_cases h3 : i < nodes.length + 8
        · rw [if_pos h3] at hm
          injection hm with hm
          subst hm
          simp at hep
        · rw [if_neg h3] at hm
          exact absurd hm (by simp)
  · intro i m hm hch
    rw [lookup_splitArena hget] at hm
    by_cases h1 : i = idx
    · rw [if_pos h1] at hm
      injection hm with hm
      subst hm
      rfl
    · rw [if_neg h1] at hm
      by_cases h2 : i < nodes.length
      · rw [if_pos h2] at hm
        exact hg.leafbk i m hm hch
      · rw [if_neg h2] at hm
        by_cases h3 : i < nodes.length + 8
        · rw [if_pos h3] at hm
          injection hm with hm
          subst hm
          rfl
        · rw [if_neg h3] at hm
          exact absurd hm (by simp)
  · intro i m hm
    rw [lookup_splitArena hget] at hm
    by_cases h1 : i = idx
    · rw [if_pos h1] at hm
      injection hm with hm
      subst hm
      exact hg.posh idx n hget
    · rw [if_neg h1] at hm
      by_cases h2 : i < nodes.length
      · rw [if_pos h2] at hm
        exact hg.posh i m hm
      · rw [if_neg h2] at hm
        by_cases h3 : i < nodes.length + 8
        · rw [if_pos h3] at hm
          injection hm with hm
          subst hm
          show 0 ≤ qhalf n.bounds.half
          rw [qhalf_eq]
          have := hg.posh idx n hget
          linarith
        · rw [if_neg h3] at hm
          exact absurd hm (by simp)
  · intro i hi
    have hlen : ((nodes ++ splitChildren n).set idx (splitParent n nodes.length)).length =
        nodes.length + 8 := by
      simp [splitChildren]
    rw [hlen] at hi
    have hreach_old : ∀ j, j < nodes.length →
        Desc ((nodes ++ splitChildren n).set idx (splitParent n nodes.length)) 0 j := by
      intro j hj
      refine Desc.congr ?_ (hg.reach j hj)
      intro l nn hl
      have hllt : l < nodes.length := TrackedSet.getElem?_lt hl
      by_cases hlidx : l = idx
      · subst hlidx
        rw [hget] at hl
        injection hl with hl
        subst hl
        refine ⟨_, lookup_splitArena_idx hget, ?_⟩
        intro cs hcs
        rw [hleaf] at hcs
        exact absurd hcs (by simp)
      · exact ⟨nn, by rw [lookup_splitArena_old hget l hllt hlidx]; exact hl,
          fun cs hcs => hcs⟩
    by_cases h2 : i < nodes.length
    · exact hreach_old i h2
    · have hj8 : i - nodes.length < 8 := by omega
      have hcsl : ((List.range 8).map fun j => nodes.length + j)[i - nodes.length]? =
          some i := by
        simp only [List.getElem?_map, List.getElem?_range hj8]
        simp
        omega
      have hstep : Desc ((nodes ++ splitChildren n).set idx (splitParent n nodes.length))
          idx i :=
        @Desc.step _ idx i i (splitParent n nodes.length)
          ((List.range 8).map fun j => nodes.length + j) (i - nodes.length)
          (lookup_splitArena_idx hget) rfl hcsl (Desc.refl i)
      exact Desc.trans_desc (hreach_old idx hidx) hstep

theorem bucketsJoin_set_ms {nodes : List ONode} {i : ℕ} {n : ONode} (n' : ONode)
    (hget : nodes[i]? = some n) :
    (bucketsJoin (nodes.set i n') : Multiset (ℕ × Vec3)) + ↑n.bucket =
      ↑(bucketsJoin nodes) + ↑n'.bucket := by
  have h := bucketsJoin_set_perm nodes i n n' hget
  rw [← Multiset.coe_eq_coe] at h
  rw [Multiset.coe_add, Multiset.coe_add]
  exact h

theorem pendingPairs_cons_ins (idx e : ℕ) (p : Vec3) (rest : List OctOp) :
    pendingPairs (OctOp.ins idx e p :: rest) = (e, p) :: pendingPairs rest := rfl

theorem pendingPairs_cons_split (idx : ℕ) (rest : List OctOp) :
    pendingPairs (OctOp.split idx :: rest) = pendingPairs rest := rfl

theorem pendingPairs_bucket_map (idx : ℕ) (bucket : List (ℕ × Vec3))
    (rest : List OctOp) :
    pendingPairs ((bucket.map fun ep => OctOp.ins idx ep.1 ep.2) ++ rest) =
      bucket ++ pendingPairs rest := by
  induction bucket with
  | nil => rfl
  | cons hd tl ih =>
    show (hd.1, hd.2) :: pendingPairs ((tl.map fun ep => OctOp.ins idx ep.1 ep.2) ++ rest) =
      (hd :: tl) ++ pendingPairs rest
    rw [ih]
    rfl

theorem bucketsJoin_push_ms {nodes : List ONode} {idx : ℕ} {n : ONode} (e : ℕ) (p : Vec3)
    (hget : nodes[idx]? = some n) :
    (bucketsJoin (nodes.set idx { n with bucket := n.bucket ++ [(e, p)] }) :
        Multiset (ℕ × Vec3)) =
      ↑(bucketsJoin nodes) + ↑([(e, p)] : List (ℕ × Vec3)) := by
  have h := bucketsJoin_set_ms { n with bucket := n.bucket ++ [(e, p)] } hget
  have hb : ({ n with bucket := n.bucket ++ [(e, p)] } : ONode).bucket =
      n.bucket ++ [(e, p)] := rfl
  rw [hb, ← Multiset.coe_add] at h
  have hcomm : (↑(bucketsJoin nodes) : Multiset (ℕ × Vec3)) +
      (↑n.bucket + ↑([(e, p)] : List (ℕ × Vec3))) =
      (↑(bucketsJoin nodes) + ↑([(e, p)] : List (ℕ × Vec3))) + ↑n.bucket := by
    rw [add_comm (↑n.bucket : Multiset (ℕ × Vec3)) _, ← add_assoc]
  rw [hcomm] at h
  exact add_right_cancel h

theorem bucketsJoin_splitArena_ms {nodes : List ONode} {idx : ℕ} {n : ONode}
    (hget : nodes[idx]? = some n) :
    (bucketsJoin ((nodes ++ splitChildren n).set idx (splitParent n nodes.length)) :
        Multiset (ℕ × Vec3)) + ↑n.bucket = ↑(bucketsJoin nodes) := by
  have hidx : idx < nodes.length := TrackedSet.getElem?_lt hget
  have hget' : (nodes ++ splitChildren n)[idx]? = some n :=
    by rw [List.getElem?_append_left hidx]; exact hget
  have h := bucketsJoin_set_ms (splitParent n nodes.length) hget'
  have happ : bucketsJoin (nodes ++ splitChildren n) = bucketsJoin nodes := by
    refine bucketsJoin_append_empty nodes (splitChildren n) ?_
    intro nn hnn
    unfold splitChildren at hnn
    rw [List.mem_map] at hnn
    obtain ⟨j, _, rfl⟩ := hnn
    rfl
  rw [happ] at h
  have hb : (splitParent n nodes.length).bucket = [] := rfl
  rw [hb] at h
  simpa using h

/-- Main preservation property of the insertion machine: a successful run
from a good arena with covered pending inserts yields a good arena, keeps
every pre-existing slot's bounds, and moves exactly the pending pairs into
buckets. -/
theorem octRun_preserves (cfg : OctreeConfig) :
    ∀ (fuel : ℕ) (nodes : List ONode) (m : ℕ → Option ℕ) (ops : List OctOp)
      (res : List ONode × (ℕ → Option ℕ)),
      octRun cfg fuel nodes m ops = some res →
      GoodArena nodes → OpsOK nodes ops →
      (∀ op ∈ ops.tail, ∃ (i2 e2 : ℕ) (p2 : Vec3), op = OctOp.ins i2 e2 p2) →
      (∀ i2 : ℕ, ops.head? = some (.split i2) →
        ∃ n2 : ONode, nodes[i2]? = some n2 ∧ n2.children = none) →
      GoodArena res.1 ∧ BoundsFrame nodes res.1 ∧
        (bucketsJoin res.1 : Multiset (ℕ × Vec3)) =
          ↑(bucketsJoin nodes) + ↑(pendingPairs ops) := by
  intro fuel
  induction fuel with
  | zero =>
    intro nodes m ops res hrun hg hok htail hhead
    cases ops with
    | nil =>
      simp only [octRun] at hrun
      injection hrun with hrun
      rw [← hrun]
      refine ⟨hg, BoundsFrame.refl nodes, by simp [pendingPairs]⟩
    | cons op rest =>
      simp only [octRun] at hrun
      exact absurd hrun (by simp)
  | succ fuel ih =>
    intro nodes m ops res hrun hg hok htail hhead
    cases ops with
    | nil =>
      simp only [octRun] at hrun
      injection hrun with hrun
      rw [← hrun]
      refine ⟨hg, BoundsFrame.refl nodes, by simp [pendingPairs]⟩
    | cons op rest =>
      simp only [octRun] at hrun
      cases op with
      | ins idx e p =>
        obtain ⟨n, hn, hcube⟩ := hok (OctOp.ins idx e p) (List.mem_cons_self _ _)
        simp only [hn] at hrun
        cases hch : n.children with
        | some cs =>
          simp only [hch] at hrun
          cases hc : cs[childIndexOf n.bounds.center p]? with
          | none =>
            simp only [hc] at hrun
            exact absurd hrun (by simp)
          | some child =>
            simp only [hc] at hrun
            obtain ⟨_, htargets⟩ := hg.oct idx n cs hn hch
            obtain ⟨t, ht, hb⟩ := htargets _ child hc
            have hcube' : inCube p t.bounds := by
              rw [hb]
              exact inCube_childCube_childIndexOf n.bounds p hcube (hg.posh idx n hn)
            have hok' : OpsOK nodes (OctOp.ins child e p :: rest) := by
              intro op hop
              rcases List.mem_cons.mp hop with rfl | hrest
              · exact ⟨t, ht, hcube'⟩
              · exact hok op (List.mem_cons_of_mem _ hrest)
            exact ih nodes m (OctOp.ins child e p :: rest) res hrun hg hok'
              (fun op hop => htail op hop) (by intro i2 hh; simp at hh)
        | none =>
          simp only [hch] at hrun
          have hnode : ({ n with bucket := n.bucket ++ [(e, p)] } : ONode) =
              { bounds := n.bounds, depth := n.depth, children := none,
                bucket := n.bucket ++ [(e, p)] } := by rw [hch]
          rw [← hnode] at hrun
          have hg1 := good_set_bucket e p hn hch hcube hg
          have hframe1 := boundsFrame_set_bucket hn (n.bucket ++ [(e, p)])
          have hms1 := bucketsJoin_push_ms e p hn
          have hlook1 : (nodes.set idx { n with bucket := n.bucket ++ [(e, p)] })[idx]? =
              some { n with bucket := n.bucket ++ [(e, p)] } := by
            rw [lookup_set hn, if_pos rfl]
          have hpp : pendingPairs (OctOp.ins idx e p :: rest) =
              [(e, p)] ++ pendingPairs rest := rfl
          by_cases hth : cfg.splitThreshold < (n.bucket ++ [(e, p)]).length
          · rw [if_pos hth] at hrun
            have hres := ih _ _ _ res hrun hg1
              (by
                intro op hop
                rcases List.mem_cons.mp hop with rfl | hrest
                · trivial
                · exact (OpsOK.frame hframe1 (OpsOK.tail hok)) op hrest)
              (by intro op hop; exact htail op hop)
              (by
                intro i2 hh
                simp at hh
                subst hh
                exact ⟨_, hlook1, hch⟩)
            refine ⟨hres.1, hframe1.trans hres.2.1, ?_⟩
            rw [hres.2.2, hms1, hpp]
            rw [pendingPairs_cons_split, ← Multiset.coe_add, add_assoc]
          · rw [if_neg hth] at hrun
            have hres := ih _ _ _ res hrun hg1
              (OpsOK.frame hframe1 (OpsOK.tail hok))
              (by
                intro op hop
                exact htail op (List.mem_of_mem_tail hop))
              (by
                intro i2 hh
                have hmem : OctOp.split i2 ∈ rest := by
                  cases rest with
                  | nil => simp at hh
                  | cons r rs =>
                    simp at hh
                    rw [hh]
                    exact List.mem_cons_self _ _
                obtain ⟨i3, e3, p3, heq⟩ := htail _ hmem
                exact absurd heq (by simp))
            refine ⟨hres.1, hframe1.trans hres.2.1, ?_⟩
            rw [hres.2.2, hms1, hpp]
            rw [← Multiset.coe_add, add_assoc]
      | split idx =>
        obtain ⟨n, hn, hleaf⟩ := hhead idx rfl
        simp only [hn] at hrun
        by_cases hguard : cfg.maxDepth ≤ n.depth ∨ qhalf n.bounds.half < cfg.minHalfSize
        · rw [if_pos hguard] at hrun
          have hres := ih _ _ _ res hrun hg
            (fun op hop => hok op (List.mem_cons_of_mem _ hop))
            (fun op hop => htail op (List.mem_of_mem_tail hop))
            (by
              intro i2 hh
              have hmem : OctOp.split i2 ∈ rest := by
                cases rest with
                | nil => simp at hh
                | cons r rs =>
                  simp at hh
                  rw [hh]
                  exact List.mem_cons_self _ _
              obtain ⟨i3, e3, p3, heq⟩ := htail _ hmem
              exact absurd heq (by simp))
          exact ⟨hres.1, hres.2.1, by rw [hres.2.2, pendingPairs_cons_split]⟩
        · rw [if_neg hguard] at hrun
          have hg2 := good_split hn hleaf hg
          have hframe2 := boundsFrame_splitArena hn
          have hms2 := bucketsJoin_splitArena_ms hn
          have hres := ih _ _ _ res hrun hg2
            (by
              intro op hop
              rcases List.mem_append.mp hop with hmap | hrest
              · rw [List.mem_map] at hmap
                obtain ⟨ep, hep, rfl⟩ := hmap
                refine ⟨splitParent n nodes.length, lookup_splitArena_idx hn, ?_⟩
                have hbnd : (splitParent n nodes.length).bounds = n.bounds := rfl
                rw [hbnd]
                exact hg.bk idx n hn ep hep
              · exact (OpsOK.frame hframe2 (OpsOK.tail hok)) op hrest)
            (by
              intro op hop
              have hopmem : op ∈ (n.bucket.map fun ep => OctOp.ins idx ep.1 ep.2) ++ rest :=
                List.mem_of_mem_tail hop
              rcases List.mem_append.mp hopmem with hmap | hrest
              · rw [List.mem_map] at hmap
                obtain ⟨ep, _, rfl⟩ := hmap
                exact ⟨idx, ep.1, ep.2, rfl⟩
              · exact htail op hrest)
            (by
              intro i2 hh
              have hmem : OctOp.split i2 ∈
                  (n.bucket.map fun ep => OctOp.ins idx ep.1 ep.2) ++ rest := by
                cases hl : (n.bucket.map fun ep => OctOp.ins idx ep.1 ep.2) ++ rest with
                | nil => rw [hl] at hh; simp at hh
                | cons r rs =>
                  rw [hl] at hh
                  simp at hh
                  rw [hh]
                  exact List.mem_cons_self _ _
              rcases List.mem_append.mp hmem with hmap | hrest
              · rw [List.mem_map] at hmap
                obtain ⟨ep, _, heq⟩ := hmap
                exact absurd heq (by simp)
              · obtain ⟨i3, e3, p3, heq⟩ := htail _ hrest
                exact absurd heq (by simp))
          refine ⟨hres.1, hframe2.trans hres.2.1, ?_⟩
          rw [hres.2.2, pendingPairs_bucket_map, pendingPairs_cons_split]
          rw [← Multiset.coe_add, ← add_assoc, hms2]

/-! ### `build_from_entities` establishes the arena invariant -/

/-- `ensure_root_contains` is a no-op when the padded root cube already
contains the point. -/
theorem growLoop_noop (cfg : OctreeConfig) (fuel : ℕ) (nodes : List ONode)
    (m : ℕ → Option ℕ) (p : Vec3) (root : ONode)
    (h0 : nodes[0]? = some root)
    (hc : root.bounds.containsP p cfg.loosePadding = true) :
    growLoop cfg fuel nodes m p = some (nodes, m) := by
  unfold growLoop
  simp [h0, hc]

theorem lookup_singleton {α : Type} {a x : α} {i : ℕ}
    (h : ([a] : List α)[i]? = some x) : i = 0 ∧ x = a := by
  cases i with
  | zero =>
    rw [List.getElem?_cons_zero] at h
    injection h with h
    exact ⟨rfl, h.symm⟩
  | succ n =>
    rw [List.getElem?_cons_succ] at h
    simp at h

/-- A one-leaf arena with an empty bucket is good whenever its half-extent is
non-negative. -/
theorem goodArena_singleton (b : AabbCube) (hh : 0 ≤ b.half) :
    GoodArena [ONode.mk b 0 none []] := by
  constructor
  · intro i n cs hget hch
    obtain ⟨_, rfl⟩ := lookup_singleton hget
    simp at hch
  · intro i n hget ep hep
    obtain ⟨_, rfl⟩ := lookup_singleton hget
    simp at hep
  · intro i n hget hch
    obtain ⟨_, rfl⟩ := lookup_singleton hget
    rfl
  · intro i n hget
    obtain ⟨_, rfl⟩ := lookup_singleton hget
    exact hh
  · intro i hi
    have h0 : i = 0 := by
      simp at hi
      omega
    rw [h0]
    exact Desc.refl 0

/-- Componentwise order on `Vec3` (for the snapshot-bounds fold). -/
def Vec3.le (a b : Vec3) : Prop := a.x ≤ b.x ∧ a.y ≤ b.y ∧ a.z ≤ b.z

theorem Vec3.le_refl (a : Vec3) : Vec3.le a a :=
  ⟨le_rfl, le_rfl, le_rfl⟩

theorem Vec3.le_trans {a b c : Vec3} (h1 : Vec3.le a b) (h2 : Vec3.le b c) :
    Vec3.le a c :=
  ⟨h1.1.trans h2.1, h1.2.1.trans h2.2.1, h1.2.2.trans h2.2.2⟩

theorem Vec3.minv_le_left (a b : Vec3) : Vec3.le (a.minv b) a :=
  ⟨min_le_left _ _, min_le_left _ _, min_le_left _ _⟩

theorem Vec3.minv_le_right (a b : Vec3) : Vec3.le (a.minv b) b :=
  ⟨min_le_right _ _, min_le_right _ _, min_le_right _ _⟩

theorem Vec3.le_maxv_left (a b : Vec3) : Vec3.le a (a.maxv b) :=
  ⟨le_max_left _ _, le_max_left _ _, le_max_left _ _⟩

theorem Vec3.le_maxv_right (a b : Vec3) : Vec3.le b (a.maxv b) :=
  ⟨le_max_right _ _, le_max_right _ _, le_max_right _ _⟩

theorem foldl_minv_le (l : List (ℕ × Vec3)) (a : Vec3) :
    Vec3.le (l.foldl (fun acc ep => acc.minv ep.2) a) a ∧
      ∀ ep ∈ l, Vec3.le (l.foldl (fun acc ep => acc.minv ep.2) a) ep.2 := by
  induction l generalizing a with
  | nil =>
    refine ⟨Vec3.le_refl a, ?_⟩
    intro ep hep
    simp at hep
  | cons hd tl ih =>
    rw [List.foldl_cons]
    obtain ⟨h1, h2⟩ := ih (a.minv hd.2)
    refine ⟨Vec3.le_trans h1 (Vec3.minv_le_left a hd.2), ?_⟩
    intro ep hep
    rcases List.mem_cons.mp hep with rfl | hmem
    · exact Vec3.le_trans h1 (Vec3.minv_le_right a ep.2)
    · exact h2 ep hmem

theorem foldl_maxv_ge (l : List (ℕ × Vec3)) (a : Vec3) :
    Vec3.le a (l.foldl (fun acc ep => acc.maxv ep.2) a) ∧
      ∀ ep ∈ l, Vec3.le ep.2 (l.foldl (fun acc ep => acc.maxv ep.2) a) := by
  induction l generalizing a with
  | nil =>
    refine ⟨Vec3.le_refl a, ?_⟩
    intro ep hep
    simp at hep
  | cons hd tl ih =>
    rw [List.foldl_cons]
    obtain ⟨h1, h2⟩ := ih (a.maxv hd.2)
    refine ⟨Vec3.le_trans (Vec3.le_maxv_left a hd.2) h1, ?_⟩
    intro ep hep
    rcases List.mem_cons.mp hep with rfl | hmem
    · exact Vec3.le_trans (Vec3.le_maxv_right a ep.2) h1
    · exact h2 ep hmem

/-- Componentwise minimum of a non-empty snapshot (`build_from_entities`). -/
def snapLo (e0 : ℕ × Vec3) (rest : List (ℕ × Vec3)) : Vec3 :=
  rest.foldl (fun acc ep => acc.minv ep.2) e0.2

/-- Componentwise maximum of a non-empty snapshot (`build_from_entities`). -/
def snapHi (e0 : ℕ × Vec3) (rest : List (ℕ × Vec3)) : Vec3 :=
  rest.foldl (fun acc ep => acc.maxv ep.2) e0.2

/-- The root cube chosen by `build_from_entities` for a non-empty snapshot:
center of the min/max bounds, half-extent padded by `initial_padding` and
clamped below by `min_half_size`. -/
def rootCube (cfg : OctreeConfig) (e0 : ℕ × Vec3) (rest : List (ℕ × Vec3)) :
    AabbCube :=
  ⟨⟨qhalf (qadd (snapLo e0 rest).x (snapHi e0 rest).x),
    qhalf (qadd (snapLo e0 rest).y (snapHi e0 rest).y),
    qhalf (qadd (snapLo e0 rest).z (snapHi e0 rest).z)⟩,
   max (qadd (max (max (qhalf (qsub (snapHi e0 rest).x (snapLo e0 rest).x))
       (qhalf (qsub (snapHi e0 rest).y (snapLo e0 rest).y)))
       (qhalf (qsub (snapHi e0 rest).z (snapLo e0 rest).z)))
     cfg.initialPadding) cfg.minHalfSize⟩

theorem buildFromEntities_cons_eq (oc : Octree) (e0 : ℕ × Vec3)
    (rest : List (ℕ × Vec3)) :
    oc.buildFromEntities (e0 :: rest) =
      match (e0 :: rest).foldlM
          (fun (st : Octree) ep => st.insertInternal ep.1 ep.2)
          { oc with nodes := [ONode.mk (rootCube oc.cfg e0 rest) 0 none []],
                    entityLeaf := fun _ => none } with
      | none => none
      | some st => some { st with built := true } := rfl

theorem snapLo_le (e0 : ℕ × Vec3) (rest : List (ℕ × Vec3)) :
    ∀ ep ∈ e0 :: rest, Vec3.le (snapLo e0 rest) ep.2 := by
  intro ep hep
  rcases List.mem_cons.mp hep with rfl | hmem
  · exact (foldl_minv_le rest ep.2).1
  · exact (foldl_minv_le rest e0.2).2 ep hmem

theorem snapHi_ge (e0 : ℕ × Vec3) (rest : List (ℕ × Vec3)) :
    ∀ ep ∈ e0 :: rest, Vec3.le ep.2 (snapHi e0 rest) := by
  intro ep hep
  rcases List.mem_cons.mp hep with rfl | hmem
  · exact (foldl_maxv_ge rest ep.2).1
  · exact (foldl_maxv_ge rest e0.2).2 ep hmem

theorem half_le_rootHalf (cfg : OctreeConfig) (e0 : ℕ × Vec3)
    (rest : List (ℕ × Vec3)) (hip : 0 ≤ cfg.initialPadding) :
    ((snapHi e0 rest).x - (snapLo e0 rest).x) / 2 ≤ (rootCube cfg e0 rest).half ∧
    ((snapHi e0 rest).y - (snapLo e0 rest).y) / 2 ≤ (rootCube cfg e0 rest).half ∧
    ((snapHi e0 rest).z - (snapLo e0 rest).z) / 2 ≤ (rootCube cfg e0 rest).half := by
  unfold rootCube
  simp only [qhalf_eq, qadd_eq, qsub_eq]
  set hx := ((snapHi e0 rest).x - (snapLo e0 rest).x) / 2 with hhx
  set hy := ((snapHi e0 rest).y - (snapLo e0 rest).y) / 2 with hhy
  set hz := ((snapHi e0 rest).z - (snapLo e0 rest).z) / 2 with hhz
  have k1 : hx ≤ max (max hx hy) hz := le_trans (le_max_left _ _) (le_max_left _ _)
  have k2 : hy ≤ max (max hx hy) hz := le_trans (le_max_right _ _) (le_max_left _ _)
  have k3 : hz ≤ max (max hx hy) hz := le_max_right _ _
  have k4 : max (max hx hy) hz ≤ max (max hx hy) hz + cfg.initialPadding := by
    linarith
  have k5 : max (max hx hy) hz + cfg.initialPadding ≤
      max (max (max hx hy) hz + cfg.initialPadding) cfg.minHalfSize :=
    le_max_left _ _
  exact ⟨by linarith, by linarith, by linarith⟩

theorem rootCube_half_nonneg (cfg : OctreeConfig) (e0 : ℕ × Vec3)
    (rest : List (ℕ × Vec3)) (hip : 0 ≤ cfg.initialPadding) :
    0 ≤ (rootCube cfg e0 rest).half := by
  have h := (half_le_rootHalf cfg e0 rest hip).1
  have h1 := (snapLo_le e0 rest e0 (List.mem_cons_self _ _)).1
  have h2 := (snapHi_ge e0 rest e0 (List.mem_cons_self _ _)).1
  linarith

/-- Every snapshot point lies in the (unpadded) root cube chosen by
`build_from_entities`. -/
theorem inCube_rootCube (cfg : OctreeConfig) (e0 : ℕ × Vec3)
    (rest : List (ℕ × Vec3)) (hip : 0 ≤ cfg.initialPadding)
    (ep : ℕ × Vec3) (hep : ep ∈ e0 :: rest) :
    inCube ep.2 (rootCube cfg e0 rest) := by
  obtain ⟨l1, l2, l3⟩ := snapLo_le e0 rest ep hep
  obtain ⟨r1, r2, r3⟩ := snapHi_ge e0 rest ep hep
  obtain ⟨b1, b2, b3⟩ := half_le_rootHalf cfg e0 rest hip
  have hc : (rootCube cfg e0 rest).center =
      ⟨qhalf (qadd (snapLo e0 rest).x (snapHi e0 rest).x),
       qhalf (qadd (snapLo e0 rest).y (snapHi e0 rest).y),
       qhalf (qadd (snapLo e0 rest).z (snapHi e0 rest).z)⟩ := rfl
  refine ⟨?_, ?_, ?_⟩ <;> rw [hc] <;> simp only [qhalf_eq, qadd_eq] <;>
    rw [abs_le] <;> constructor <;> linarith

/-- Invariant maintained while `build_from_entities` feeds the snapshot into
`insert_internal`: fixed configuration, fixed root bounds, a good arena, and
bucket contents equal to the processed prefix. -/
structure BuildInv (cfg : OctreeConfig) (rb : AabbCube)
    (done : List (ℕ × Vec3)) (st : Octree) : Prop where
  cfgeq : st.cfg = cfg
  root : ∃ rn : ONode, st.nodes[0]? = some rn ∧ rn.bounds = rb
  good : GoodArena st.nodes
  ms : (bucketsJoin st.nodes : Multiset (ℕ × Vec3)) = ↑done

theorem insertInternal_inv {cfg : OctreeConfig} {rb : AabbCube}
    {done : List (ℕ × Vec3)} {st st' : Octree} (e : ℕ) (p : Vec3)
    (hlp : 0 ≤ cfg.loosePadding) (hcube : inCube p rb)
    (hins : st.insertInternal e p = some st')
    (hinv : BuildInv cfg rb done st) :
    BuildInv cfg rb (done ++ [(e, p)]) st' := by
  obtain ⟨rn, h0, hrb⟩ := hinv.root
  have hne : st.nodes.isEmpty = false := by
    cases hnl : st.nodes with
    | nil => rw [hnl] at h0; simp at h0
    | cons a t => rfl
  have hcp : rn.bounds.containsP p cfg.loosePadding = true := by
    rw [hrb]
    exact containsP_of_inCube rb p cfg.loosePadding hcube hlp
  have hgl : growLoop st.cfg (octFuel st.cfg st.nodes) st.nodes st.entityLeaf p =
      some (st.nodes, st.entityLeaf) := by
    rw [hinv.cfgeq]
    exact growLoop_noop cfg _ st.nodes st.entityLeaf p rn h0 hcp
  unfold Octree.insertInternal insertInternalS at hins
  simp only [hne, Bool.false_eq_true, if_false, hgl] at hins
  rw [hinv.cfgeq] at hins
  cases hrun : octRun cfg (octFuel cfg st.nodes) st.nodes st.entityLeaf
      [OctOp.ins 0 e p] with
  | none =>
    simp only [hrun] at hins
    exact Option.noConfusion hins
  | some res =>
    obtain ⟨nodes1, m1⟩ := res
    simp only [hrun] at hins
    injection hins with hins
    have hpre := octRun_preserves cfg (octFuel cfg st.nodes) st.nodes
      st.entityLeaf [OctOp.ins 0 e p] (nodes1, m1) hrun
      hinv.good
      (by
        intro op hop
        rcases List.mem_cons.mp hop with rfl | h
        · exact ⟨rn, h0, by rw [hrb]; exact hcube⟩
        · simp at h)
      (by intro op hop; simp at hop)
      (by intro i2 hh; simp at hh)
    obtain ⟨hg', hframe, hms⟩ := hpre
    rw [← hins]
    constructor
    · rfl
    · obtain ⟨rn', h0', hb'⟩ := hframe 0 rn h0
      exact ⟨rn', h0', by rw [hb', hrb]⟩
    · exact hg'
    · show (bucketsJoin nodes1 : Multiset (ℕ × Vec3)) = ↑(done ++ [(e, p)])
      have hms' : (bucketsJoin nodes1 : Multiset (ℕ × Vec3)) =
          ↑(bucketsJoin st.nodes) + ↑(pendingPairs [OctOp.ins 0 e p]) := hms
      have hpp : pendingPairs [OctOp.ins 0 e p] = [(e, p)] := rfl
      rw [hms', hpp, hinv.ms, Multiset.coe_add]

theorem buildFold_inv (cfg : OctreeConfig) (rb : AabbCube)
    (hlp : 0 ≤ cfg.loosePadding) (l : List (ℕ × Vec3)) :
    ∀ (st st' : Octree) (done : List (ℕ × Vec3)),
      l.foldlM (fun (st : Octree) ep => st.insertInternal ep.1 ep.2) st =
        some st' →
      BuildInv cfg rb done st → (∀ ep ∈ l, inCube ep.2 rb) →
      BuildInv cfg rb (done ++ l) st' := by
  induction l with
  | nil =>
    intro st st' done hfold hinv _
    have h : st = st' := by
      injection hfold
    rw [← h, List.append_nil]
    exact hinv
  | cons a l ih =>
    intro st st' done hfold hinv hall
    rw [List.foldlM_cons] at hfold
    cases hstep : st.insertInternal a.1 a.2 with
    | none =>
      rw [hstep] at hfold
      exact Option.noConfusion hfold
    | some st1 =>
      rw [hstep] at hfold
      have hfold' : l.foldlM (fun (st : Octree) ep => st.insertInternal ep.1 ep.2)
          st1 = some st' := hfold
      have h1 := insertInternal_inv a.1 a.2 hlp
        (hall a (List.mem_cons_self _ _)) hstep hinv
      have h2 := ih st1 st' (done ++ [a]) hfold' h1
        (fun ep hep => hall ep (List.mem_cons_of_mem _ hep))
      rw [List.append_assoc] at h2
      exact h2

/-- The state `build_from_entities` produces: marked built, a good arena,
and bucket contents equal (as a multiset) to the snapshot. -/
theorem Octree.buildFromEntities_good (oc : Octree) (es : List (ℕ × Vec3))
    (oc' : Octree) (hip : 0 ≤ oc.cfg.initialPadding)
    (hlp : 0 ≤ oc.cfg.loosePadding)
    (hbuild : oc.buildFromEntities es = some oc') :
    oc'.built = true ∧ GoodArena oc'.nodes ∧
      (bucketsJoin oc'.nodes : Multiset (ℕ × Vec3)) = ↑es := by
  cases es with
  | nil =>
    unfold Octree.buildFromEntities at hbuild
    injection hbuild with hbuild
    rw [← hbuild]
    refine ⟨rfl, ?_, ?_⟩
    · exact goodArena_singleton _ (by norm_num)
    · rfl
  | cons e0 rest =>
    rw [buildFromEntities_cons_eq] at hbuild
    cases hfold : (e0 :: rest).foldlM
        (fun (st : Octree) ep => st.insertInternal ep.1 ep.2)
        { oc with nodes := [ONode.mk (rootCube oc.cfg e0 rest) 0 none []],
                  entityLeaf := fun _ => none } with
    | none =>
      rw [hfold] at hbuild
      exact Option.noConfusion hbuild
    | some st =>
      rw [hfold] at hbuild
      injection hbuild with hbuild
      have hstart : BuildInv oc.cfg (rootCube oc.cfg e0 rest) []
          { oc with nodes := [ONode.mk (rootCube oc.cfg e0 rest) 0 none []],
                    entityLeaf := fun _ => none } := by
        refine ⟨rfl, ⟨_, rfl, rfl⟩, ?_, rfl⟩
        exact goodArena_singleton _ (rootCube_half_nonneg oc.cfg e0 rest hip)
      have hres := buildFold_inv oc.cfg (rootCube oc.cfg e0 rest) hlp
        (e0 :: rest) _ st [] hfold hstart
        (fun ep hep => inCube_rootCube oc.cfg e0 rest hip ep hep)
      rw [← hbuild]
      refine ⟨rfl, hres.good, ?_⟩
      have hms := hres.ms
      rw [List.nil_append] at hms
      exact hms

/-! ### Octree query soundness and completeness -/

/-- Inside a good arena, a point inside a descendant's cube is inside every
ancestor's cube along the `children` path. -/
theorem desc_inCube {nodes : List ONode} (hg : GoodArena nodes) {i j : ℕ}
    (hd : Desc nodes i j) :
    ∀ {nj : ONode}, nodes[j]? = some nj → ∀ {q : Vec3}, inCube q nj.bounds →
      ∀ {ni : ONode}, nodes[i]? = some ni → inCube q ni.bounds := by
  induction hd with
  | refl i =>
    intro nj hnj q hq ni hni
    rw [hnj] at hni
    injection hni with hni
    rw [← hni]
    exact hq
  | step hn hcs hc hdesc ih =>
    intro nj hnj q hq ni hni
    obtain ⟨hlen, htg⟩ := hg.oct _ _ _ hn hcs
    obtain ⟨mc, hmc, hbc⟩ := htg _ _ hc
    have hq' := ih hnj hq hmc
    rw [hbc] at hq'
    have hout := inCube_of_childCube _ _ q hq' (hg.posh _ _ hn)
    rw [hn] at hni
    injection hni with hni
    rw [← hni]
    exact hout

/-- The query loop only appends to its accumulator. -/
theorem octQueryLoop_mono (nodes : List ONode) (s : Vec3) (r : ℚ) :
    ∀ (fuel : ℕ) (stack out res : List ℕ),
      octQueryLoop nodes s r fuel stack out = some res →
      ∀ x ∈ out, x ∈ res := by
  intro fuel
  induction fuel with
  | zero =>
    intro stack out res hrun x hx
    cases stack with
    | nil =>
      simp only [octQueryLoop] at hrun
      injection hrun with hrun
      rw [← hrun]
      exact hx
    | cons idx rest =>
      simp only [octQueryLoop] at hrun
      exact Option.noConfusion hrun
  | succ fuel ih =>
    intro stack out res hrun x hx
    cases stack with
    | nil =>
      simp only [octQueryLoop] at hrun
      injection hrun with hrun
      rw [← hrun]
      exact hx
    | cons idx rest =>
      simp only [octQueryLoop] at hrun
      cases hn : nodes[idx]? with
      | none =>
        simp only [hn] at hrun
        exact Option.noConfusion hrun
      | some n =>
        simp only [hn] at hrun
        by_cases hi : n.bounds.intersectsSphereC s r = true
        · rw [if_pos hi] at hrun
          cases hch : n.children with
          | some cs =>
            simp only [hch] at hrun
            exact ih _ _ _ hrun x hx
          | none =>
            simp only [hch] at hrun
            exact ih _ _ _ hrun x (List.mem_append_left _ hx)
        · rw [if_neg hi] at hrun
          exact ih _ _ _ hrun x hx

/-- Everything the query loop returns beyond its accumulator is a bucketed
pair passing the exact inclusive radius filter. -/
theorem octQueryLoop_sound (nodes : List ONode) (s : Vec3) (r : ℚ) :
    ∀ (fuel : ℕ) (stack out res : List ℕ),
      octQueryLoop nodes s r fuel stack out = some res →
      ∀ x ∈ res, x ∈ out ∨ ∃ (j : ℕ) (n : ONode) (p : Vec3),
        nodes[j]? = some n ∧ (x, p) ∈ n.bucket ∧ inRadiusB p s r = true := by
  intro fuel
  induction fuel with
  | zero =>
    intro stack out res hrun x hx
    cases stack with
    | nil =>
      simp only [octQueryLoop] at hrun
      injection hrun with hrun
      rw [← hrun] at hx
      exact Or.inl hx
    | cons idx rest =>
      simp only [octQueryLoop] at hrun
      exact Option.noConfusion hrun
  | succ fuel ih =>
    intro stack out res hrun x hx
    cases stack with
    | nil =>
      simp only [octQueryLoop] at hrun
      injection hrun with hrun
      rw [← hrun] at hx
      exact Or.inl hx
    | cons idx rest =>
      simp only [octQueryLoop] at hrun
      cases hn : nodes[idx]? with
      | none =>
        simp only [hn] at hrun
        exact Option.noConfusion hrun
      | some n =>
        simp only [hn] at hrun
        by_cases hi : n.bounds.intersectsSphereC s r = true
        · rw [if_pos hi] at hrun
          cases hch : n.children with
          | some cs =>
            simp only [hch] at hrun
            exact ih _ _ _ hrun x hx
          | none =>
            simp only [hch] at hrun
            rcases ih _ _ _ hrun x hx with hout | hfound
            · rcases List.mem_append.mp hout with h1 | h2
              · exact Or.inl h1
              · rw [List.mem_filterMap] at h2
                obtain ⟨ep, hep, hcond⟩ := h2
                by_cases hrad : inRadiusB ep.2 s r = true
                · rw [if_pos hrad] at hcond
                  injection hcond with hcond
                  refine Or.inr ⟨idx, n, ep.2, hn, ?_, hrad⟩
                  rw [← hcond]
                  exact hep
                · rw [if_neg hrad] at hcond
                  exact Option.noConfusion hcond
            · exact Or.inr hfound
        · rw [if_neg hi] at hrun
          exact ih _ _ _ hrun x hx

/-- Completeness of the traversal: on a good arena, a successful run reports
every in-radius bucketed pair below any stacked index. -/
theorem octQueryLoop_complete (nodes : List ONode) (s : Vec3) (r : ℚ)
    (hg : GoodArena nodes) :
    ∀ (fuel : ℕ) (stack out res : List ℕ),
      octQueryLoop nodes s r fuel stack out = some res →
      ∀ (i j : ℕ), i ∈ stack → Desc nodes i j →
      ∀ n : ONode, nodes[j]? = some n →
      ∀ ep ∈ n.bucket, inRadiusB ep.2 s r = true → ep.1 ∈ res := by
  intro fuel
  induction fuel with
  | zero =>
    intro stack out res hrun i j hi hd n hn ep hep hrad
    cases stack with
    | nil => simp at hi
    | cons idx rest =>
      simp only [octQueryLoop] at hrun
      exact Option.noConfusion hrun
  | succ fuel ih =>
    intro stack out res hrun i j hi hd n hn ep hep hrad
    cases stack with
    | nil => simp at hi
    | cons idx rest =>
      simp only [octQueryLoop] at hrun
      cases hn0 : nodes[idx]? with
      | none =>
        simp only [hn0] at hrun
        exact Option.noConfusion hrun
      | some n0 =>
        simp only [hn0] at hrun
        have hq : inCube ep.2 n.bounds := hg.bk _ _ hn ep hep
        by_cases hint : n0.bounds.intersectsSphereC s r = true
        · rw [if_pos hint] at hrun
          cases hch : n0.children with
          | some cs =>
            simp only [hch] at hrun
            rcases List.mem_cons.mp hi with rfl | hrest
            · cases hd with
              | refl =>
                rw [hn0] at hn
                injection hn with hn
                rw [← hn] at hep
                rw [hg.leafbk _ _ hn0 (by rw [hch]; simp)] at hep
                simp at hep
              | step hn' hcs' hc' hd' =>
                rw [hn0] at hn'
                injection hn' with hn'
                rw [← hn'] at hcs'
                rw [hch] at hcs'
                injection hcs' with hcs'
                have hcmem : _ ∈ cs := List.mem_iff_getElem?.mpr ⟨_, hcs' ▸ hc'⟩
                exact ih _ _ _ hrun _ j
                  (List.mem_append_left _ (List.mem_reverse.mpr hcmem)) hd' n hn
                  ep hep hrad
            · exact ih _ _ _ hrun i j (List.mem_append_right _ hrest) hd n hn
                ep hep hrad
          | none =>
            simp only [hch] at hrun
            rcases List.mem_cons.mp hi with rfl | hrest
            · cases hd with
              | refl =>
                rw [hn0] at hn
                injection hn with hn
                rw [← hn] at hep
                refine octQueryLoop_mono nodes s r _ _ _ _ hrun ep.1 ?_
                refine List.mem_append_right _ ?_
                rw [List.mem_filterMap]
                refine ⟨ep, hep, ?_⟩
                rw [if_pos hrad]
              | step hn' hcs' hc' hd' =>
                rw [hn0] at hn'
                injection hn' with hn'
                rw [← hn'] at hcs'
                rw [hch] at hcs'
                exact Option.noConfusion hcs'
            · exact ih _ _ _ hrun i j hrest hd n hn ep hep hrad
        · rw [if_neg hint] at hrun
          rcases List.mem_cons.mp hi with rfl | hrest
          · exfalso
            have hin0 : inCube ep.2 n0.bounds := desc_inCube hg hd hn hq hn0
            have : n0.bounds.intersectsSphereC s r = true := by
              refine intersectsSphereC_of_inCube _ _ _ _ hin0 ?_
              have h := (inRadiusB_iff ep.2 s r).mp hrad
              exact h.2
            exact hint this
          · exact ih _ _ _ hrun i j hrest hd n hn ep hep hrad

/-- Membership characterization of a successful `Octree::entities_in_radius`
on a built octree whose arena satisfies the structural invariant. -/
theorem Octree.mem_entitiesInRadius_good (oc : Octree) (hg : GoodArena oc.nodes)
    (hb : oc.built = true) (s : Vec3) (r : ℚ) (l : List ℕ)
    (hq : oc.entitiesInRadius s r = some l) (x : ℕ) :
    x ∈ l ↔ ∃ p, (x, p) ∈ bucketsJoin oc.nodes ∧ inRadiusB p s r = true := by
  unfold Octree.entitiesInRadius at hq
  rw [hb] at hq
  cases hemp : oc.nodes.isEmpty with
  | true =>
    rw [hemp] at hq
    simp only [Bool.not_true, Bool.false_or] at hq
    injection hq with hq
    have hnil : oc.nodes = [] := List.isEmpty_iff.mp hemp
    rw [← hq, hnil]
    constructor
    · intro h; simp at h
    · rintro ⟨p, hp, _⟩
      simp [bucketsJoin] at hp
  | false =>
    rw [hemp] at hq
    simp only [Bool.not_true, Bool.false_or] at hq
    constructor
    · intro hx
      rcases octQueryLoop_sound oc.nodes s r _ _ _ _ hq x hx with h | h
      · simp at h
      · obtain ⟨j, n, p, hj, hmem, hrad⟩ := h
        exact ⟨p, mem_bucketsJoin.mpr ⟨j, n, hj, hmem⟩, hrad⟩
    · rintro ⟨p, hp, hrad⟩
      obtain ⟨j, n, hj, hmem⟩ := mem_bucketsJoin.mp hp
      have hjlt : j < oc.nodes.length := TrackedSet.getElem?_lt hj
      exact octQueryLoop_complete oc.nodes s r hg _ _ _ _ hq 0 j
        (List.mem_cons_self _ _) (hg.reach j hjlt) n hj (x, p) hmem hrad

/-- End-to-end: a never-built octree prepared from a snapshot answers radius
queries with exactly the snapshot pairs passing the inclusive filter. -/
theorem Octree.mem_entitiesInRadius_prepared_fresh (oc : Octree)
    (hb0 : oc.built = false) (hip : 0 ≤ oc.cfg.initialPadding)
    (hlp : 0 ≤ oc.cfg.loosePadding) (es : List (ℕ × Vec3)) (oc' : Octree)
    (hprep : oc.prepare es = some oc') (s : Vec3) (r : ℚ) (l : List ℕ)
    (hq : oc'.entitiesInRadius s r = some l) (x : ℕ) :
    x ∈ l ↔ ∃ p, (x, p) ∈ es ∧ inRadiusB p s r = true := by
  unfold Octree.prepare at hprep
  rw [hb0] at hprep
  simp only [Bool.false_eq_true, if_false] at hprep
  obtain ⟨hb, hg, hms⟩ := Octree.buildFromEntities_good oc es oc' hip hlp hprep
  rw [Octree.mem_entitiesInRadius_good oc' hg hb s r l hq x]
  have hperm : (bucketsJoin oc'.nodes).Perm es := Multiset.coe_eq_coe.mp hms
  constructor
  · rintro ⟨p, hp, hr⟩
    exact ⟨p, hperm.mem_iff.mp hp, hr⟩
  · rintro ⟨p, hp, hr⟩
    exact ⟨p, hperm.mem_iff.mpr hp, hr⟩

/-! ### Bootstrap from a single pair (incremental paths on an unbuilt octree) -/

theorem qhalf_qadd_self (a : ℚ) : qhalf (qadd a a) = a := by
  rw [qadd_eq, qhalf_eq]
  ring

theorem qhalf_qsub_self (a : ℚ) : qhalf (qsub a a) = 0 := by
  rw [qsub_eq, qhalf_eq]
  ring

/-- The root cube for the singleton snapshot `[(e, p)]`: centered at `p`,
half-extent `max initial_padding min_half_size`. -/
theorem rootCube_single (cfg : OctreeConfig) (e : ℕ) (p : Vec3) :
    rootCube cfg (e, p) [] =
      ⟨p, max cfg.initialPadding cfg.minHalfSize⟩ := by
  unfold rootCube snapLo snapHi
  simp only [List.foldl_nil]
  rw [qhalf_qadd_self, qhalf_qadd_self, qhalf_qadd_self,
    qhalf_qsub_self, qhalf_qsub_self, qhalf_qsub_self, max_self, max_self,
    qadd_eq, zero_add]

/-- One fresh insert into a one-leaf arena: the pair lands in the root
bucket (no split fires when `1 ≤ split_threshold`). -/
theorem insertInternal_fresh (cfg : OctreeConfig) (b : Bool) (rb : AabbCube)
    (e : ℕ) (p : Vec3) (hst : 1 ≤ cfg.splitThreshold)
    (hin : rb.containsP p cfg.loosePadding = true) :
    (Octree.mk cfg b [ONode.mk rb 0 none []]
        (fun _ => none)).insertInternal e p =
      some (Octree.mk cfg b [ONode.mk rb 0 none [(e, p)]]
        (fun k => if k = e then some 0 else none)) := by
  unfold Octree.insertInternal insertInternalS
  simp only [List.isEmpty_cons, Bool.false_eq_true, if_false]
  rw [growLoop_noop cfg _ _ _ p (ONode.mk rb 0 none []) rfl hin]
  have hf : octFuel cfg [ONode.mk rb 0 none []] =
      (cfg.maxDepth + cfg.splitThreshold + 99) + 1 := by
    unfold octFuel
    simp
    omega
  rw [hf]
  simp only [octRun, List.getElem?_cons_zero]
  rw [if_neg (by simp; omega)]
  simp only [List.set_cons_zero, octRun]
  rfl

/-- `build_from_entities [(e, p)]`: a single leaf holding the pair, reverse
map sending `e` to slot 0, marked built. -/
theorem buildFromEntities_single (oc : Octree) (e : ℕ) (p : Vec3)
    (hip : 0 ≤ oc.cfg.initialPadding) (hlp : 0 ≤ oc.cfg.loosePadding)
    (hst : 1 ≤ oc.cfg.splitThreshold) :
    oc.buildFromEntities [(e, p)] =
      some (Octree.mk oc.cfg true
        [ONode.mk ⟨p, max oc.cfg.initialPadding oc.cfg.minHalfSize⟩ 0 none
          [(e, p)]]
        (fun k => if k = e then some 0 else none)) := by
  have hcube : inCube p
      (⟨p, max oc.cfg.initialPadding oc.cfg.minHalfSize⟩ : AabbCube) := by
    refine ⟨?_, ?_, ?_⟩ <;> simp <;> exact Or.inl hip
  have hcp : (⟨p, max oc.cfg.initialPadding oc.cfg.minHalfSize⟩ :
      AabbCube).containsP p oc.cfg.loosePadding = true :=
    containsP_of_inCube _ p _ hcube hlp
  rw [buildFromEntities_cons_eq]
  rw [rootCube_single]
  rw [List.foldlM_cons]
  rw [insertInternal_fresh oc.cfg oc.built
    ⟨p, max oc.cfg.initialPadding oc.cfg.minHalfSize⟩ e p hst hcp]
  rfl

/-- Query of a one-leaf arena: the root is visited (its cube intersects the
sphere), and the bucketed pair passes, or not, the exact inclusive filter. -/
theorem entitiesInRadius_single (cfg : OctreeConfig) (rb : AabbCube) (e : ℕ)
    (p : Vec3) (m : ℕ → Option ℕ) (s : Vec3) (r : ℚ)
    (hint : rb.intersectsSphereC s r = true) :
    (Octree.mk cfg true [ONode.mk rb 0 none [(e, p)]] m).entitiesInRadius
        s r = some (if inRadiusB p s r then [e] else []) := by
  unfold Octree.entitiesInRadius Octree.queryFuel
  simp only [List.isEmpty_cons, Bool.not_true, Bool.false_or,
    Bool.false_eq_true, if_false]
  rw [show (9 * ([ONode.mk rb 0 none [(e, p)]] : List ONode).length + 9) =
    17 + 1 from rfl]
  simp only [octQueryLoop, List.getElem?_cons_zero]
  rw [if_pos hint]
  by_cases hrad : inRadiusB p s r = true
  · rw [if_pos hrad]
    simp only [List.filterMap_cons, List.filterMap_nil, hrad, if_pos]
    rfl
  · rw [if_neg hrad]
    rw [Bool.not_eq_true] at hrad
    simp only [List.filterMap_cons, List.filterMap_nil, hrad]
    rfl

/-- `Octree::prepare` is a no-op once the index is built. -/
theorem Octree.prepare_built_noop (oc : Octree) (hb : oc.built = true)
    (es : List (ℕ × Vec3)) : oc.prepare es = some oc := by
  unfold Octree.prepare
  rw [hb]
  simp

/-! ### Concrete artifacts used by claim instantiations -/

/-- The BVH produced by `prepare [(0, origin)]` with the default settings:
one leaf, a degenerate AABB at the origin, depth 1. -/
def bvhSingle : Bvh :=
  ⟨10000, 10,
   some (BvhNode.leaf ⟨⟨0, 0, 0⟩, ⟨0, 0, 0⟩⟩ [(0, ⟨0, 0, 0⟩)]), 1⟩

theorem bvh_prepare_single :
    Bvh.default.prepare [(0, ⟨0, 0, 0⟩)] = some bvhSingle := by rfl

theorem trackedSet_empty_inv :
    TrackedSet.Inv ⟨[], fun _ => none⟩ := by
  constructor
  · intro i pair h
    simp at h
  · intro e i h
    simp at h

/-- Fifteen entities (positions irrelevant to the split-candidate stride). -/
def es15 : List (ℕ × Vec3) := (List.range 15).map fun k => (k, ⟨0, 0, 0⟩)

/-- An orchestrator state whose Octree index (built from `[(0, origin)]`) is
stale for its TrackedSet `[(0, origin), (1, (1/2, 0, 0))]`. -/
def stStale : LookupStateOct :=
  ⟨[(0, ⟨0, 0, 0⟩), (1, ⟨mkRat 1 2, 0, 0⟩)],
   fun k => if k = 0 then some 0 else if k = 1 then some 1 else none,
   ocSingle, true, false⟩

/-! ## Claim theorems -/

/-- C1: for every snapshot prepared into each algorithm (with non-negative
octree paddings) and every sample point and radius, the Naive scan, the BVH
query, and a successful Octree query return identical identifier sets — each
membership is equivalent to the snapshot holding a position of that
identifier within the inclusive radius. -/
theorem claim_C1 (cfg : OctreeConfig) (es : List (ℕ × Vec3)) (b b' : Bvh)
    (oc' : Octree) (s : Vec3) (r : ℚ) (lq : List ℕ)
    (hip : 0 ≤ cfg.initialPadding) (hlp : 0 ≤ cfg.loosePadding)
    (hbp : b.prepare es = some b')
    (hop : (Octree.new cfg).prepare es = some oc')
    (hoq : oc'.entitiesInRadius s r = some lq) (x : ℕ) :
    (x ∈ (Naive.default.prepare es).entitiesInRadius s r ↔
      ∃ p, (x, p) ∈ es ∧ inRadiusB p s r = true) ∧
    (x ∈ b'.entitiesInRadius s r ↔
      ∃ p, (x, p) ∈ es ∧ inRadiusB p s r = true) ∧
    (x ∈ lq ↔ ∃ p, (x, p) ∈ es ∧ inRadiusB p s r = true) :=
  ⟨Naive.mem_entitiesInRadius _ s r x,
   Bvh.mem_entitiesInRadius_prepared b b' es hbp s r x,
   Octree.mem_entitiesInRadius_prepared_fresh (Octree.new cfg) rfl hip hlp es oc'
     hop s r lq hoq x⟩

theorem claim_C1_witness :
    (0 ∈ (Naive.default.prepare
        [(0, (⟨0, 0, 0⟩ : Vec3))]).entitiesInRadius ⟨0, 0, 0⟩ 1 ↔
      ∃ p, ((0 : ℕ), p) ∈ [((0 : ℕ), (⟨0, 0, 0⟩ : Vec3))] ∧
        inRadiusB p ⟨0, 0, 0⟩ 1 = true) ∧
    (0 ∈ bvhSingle.entitiesInRadius ⟨0, 0, 0⟩ 1 ↔
      ∃ p, ((0 : ℕ), p) ∈ [((0 : ℕ), (⟨0, 0, 0⟩ : Vec3))] ∧
        inRadiusB p ⟨0, 0, 0⟩ 1 = true) ∧
    (0 ∈ ([0] : List ℕ) ↔
      ∃ p, ((0 : ℕ), p) ∈ [((0 : ℕ), (⟨0, 0, 0⟩ : Vec3))] ∧
        inRadiusB p ⟨0, 0, 0⟩ 1 = true) :=
  claim_C1 OctreeConfig.default [(0, ⟨0, 0, 0⟩)] Bvh.default bvhSingle
    ocSingle ⟨0, 0, 0⟩ 1 [0] (by decide) (by decide) (by rfl) (by rfl)
    (by rfl) 0

/-- C2: refuted — incremental updates are NOT query-equivalent to a full
rebuild.  Starting from the index built from `[(0, origin)]`, incrementally
inserting `(1, (13/10, 0, 0))` (kept in the root's bucket via the loose-fit
shell, outside the root's unpadded cube `[-1,1]³`) makes the query at
`(29/20, 0, 0)` with radius `3/20` return nothing, while the index fully
rebuilt from the same final snapshot returns entity 1 — which is in radius. -/
theorem claim_C2 :
    (Octree.new OctreeConfig.default).buildFromEntities [(0, ⟨0, 0, 0⟩)] =
      some ocSingle ∧
    ((ocSingle.insertEntity 1 ⟨mkRat 13 10, 0, 0⟩).bind
      (fun oc => oc.entitiesInRadius ⟨mkRat 29 20, 0, 0⟩ (mkRat 3 20))) =
      some [] ∧
    (((Octree.new OctreeConfig.default).buildFromEntities
      [(0, ⟨0, 0, 0⟩), (1, ⟨mkRat 13 10, 0, 0⟩)]).bind
      (fun oc => oc.entitiesInRadius ⟨mkRat 29 20, 0, 0⟩ (mkRat 3 20))) =
      some [1] ∧
    inRadiusB ⟨mkRat 13 10, 0, 0⟩ ⟨mkRat 29 20, 0, 0⟩ (mkRat 3 20) = true :=
  ⟨build_single_eq, incremental_misses_loose_point, rebuild_finds_loose_point,
   loose_point_is_in_radius⟩

/-- C3: refuted for the BVH — preparing with the empty snapshot panics
(`split_node` asserts `!entities.is_empty()`, modelled by `none`), while the
Naive scan and the Octree do return empty sets safely. -/
theorem claim_C3 :
    (∀ b : Bvh, b.prepare [] = none) ∧
    (∀ (n : Naive) (s : Vec3) (r : ℚ),
      (n.prepare []).entitiesInRadius s r = []) ∧
    (∀ (cfg : OctreeConfig) (oc : Octree) (s : Vec3) (r : ℚ),
      (Octree.new cfg).prepare [] = some oc →
        oc.entitiesInRadius s r = some []) :=
  ⟨bvh_prepare_empty_panics, naive_prepare_empty_query,
   fun cfg oc s r h => octree_prepare_empty_query cfg oc h s r⟩

/-- C4 (amended): after `request_full_rebuild()`, the next `prepare()` does
invoke the active algorithm's `prepare` with the entire TrackedSet and clears
the flag — but for an already-built Octree that invocation is a no-op
(`Octree::prepare` returns immediately when `built`), so the algorithm's
state is NOT rebuilt from the snapshot. -/
theorem claim_C4 (st : LookupStateOct) :
    ((st.requestFullRebuild).prepareAlgorithm =
      (st.algorithm.prepare st.entities).map
        (fun alg => LookupStateOct.mk st.entities st.indices alg true false)) ∧
    (st.algorithm.built = true →
      (st.requestFullRebuild).prepareAlgorithm =
        some (LookupStateOct.mk st.entities st.indices st.algorithm true
          false)) := by
  have h1 : (st.requestFullRebuild).prepareAlgorithm =
      (st.algorithm.prepare st.entities).map
        (fun alg => LookupStateOct.mk st.entities st.indices alg true
          false) := by
    unfold LookupStateOct.prepareAlgorithm LookupStateOct.requestFullRebuild
    simp only [Bool.or_true, if_true]
    cases hp : st.algorithm.prepare st.entities with
    | none => rfl
    | some alg => rfl
  refine ⟨h1, ?_⟩
  intro hb
  rw [h1, Octree.prepare_built_noop st.algorithm hb st.entities]
  rfl

/-- C4 counterexample: an orchestrator state tracking
`[(0, origin), (1, (1/2, 0, 0))]` whose built Octree only indexes entity 0.
`request_full_rebuild` + `prepare` clears the flag but leaves the stale
index: the query at `(1/2, 0, 0)` with radius 0 still returns nothing, while
an index genuinely rebuilt from the TrackedSet returns entity 1. -/
theorem claim_C4_counterexample :
    ((stStale.requestFullRebuild).prepareAlgorithm.map
      (fun st => st.fullRebuildRequested)) = some false ∧
    ((stStale.requestFullRebuild).prepareAlgorithm.bind
      (fun st => st.entitiesInRadius ⟨mkRat 1 2, 0, 0⟩ 0)) = some [] ∧
    (((Octree.new OctreeConfig.default).prepare stStale.entities).bind
      (fun oc => oc.entitiesInRadius ⟨mkRat 1 2, 0, 0⟩ 0)) = some [1] ∧
    inRadiusB ⟨mkRat 1 2, 0, 0⟩ ⟨mkRat 1 2, 0, 0⟩ 0 = true := by
  refine ⟨by rfl, by rfl, by rfl, by rfl⟩

/-- C5: the TrackedSet invariant — the identifier-to-slot mapping is
consistent with the dense sequence in both directions (hence each identifier
appears at most once) — is preserved by `upsert_entity` and by
`remove_entity` (which swaps with the last slot and repairs the mapping of
the moved element). -/
theorem claim_C5 (ts : TrackedSet) (e : ℕ) (p : Vec3) (h : ts.Inv) :
    (ts.upsert e p).Inv ∧ (ts.remove e).Inv :=
  ⟨h.upsert e p, h.remove e⟩

theorem claim_C5_witness :
    ((⟨[], fun _ => none⟩ : TrackedSet).upsert 3 ⟨1, 2, 3⟩).Inv ∧
    ((⟨[], fun _ => none⟩ : TrackedSet).remove 3).Inv :=
  claim_C5 ⟨[], fun _ => none⟩ 3 ⟨1, 2, 3⟩ trackedSet_empty_inv

/-- C6 (amended): when a sorted slice of more than one entity is split with
`max_split_samples_per_axis ≥ 1`, the evaluated candidate split indices are
exactly `1, 1+step, 1+2·step, …` strictly below `len - 1` (excluding the two
end positions) with `step = len / min(len, max_split_samples_per_axis)` —
their COUNT can exceed `max_split_samples_per_axis` — and the fold returns
the initial `(1, +∞)` untouched or a visited candidate minimizing the
surface-area-heuristic cost over all visited candidates. -/
theorem claim_C6 (es : List (ℕ × Vec3)) (mssa : ℕ)
    (hlen : 1 < es.length) (hm : 1 ≤ mssa) :
    ∃ (i : ℕ) (c : Option ℚ),
      findSplitIndexAndCost es mssa = some (i, c) ∧
      (∀ j ∈ evaluatedSplitCandidates es mssa,
        costLe c (some (costQ es j)) = true) ∧
      ((i, c) = (1, none) ∨
        i ∈ evaluatedSplitCandidates es mssa ∧ c = some (costQ es i)) ∧
      (∀ j : ℕ, j ∈ evaluatedSplitCandidates es mssa ↔
        (∃ k : ℕ, j = 1 + k * (es.length / min es.length mssa)) ∧
          1 ≤ j ∧ j < es.length - 1) := by
  have hne : ¬(es.length ≤ 1 ∨ mssa = 0) := by omega
  have hstep : 1 ≤ es.length / min es.length mssa := by
    rw [Nat.one_le_div_iff (by omega)]
    omega
  refine ⟨((evaluatedSplitCandidates es mssa).foldl
      (fun m i => if costLt (costQ es i) m.2 then (i, some (costQ es i)) else m)
      (1, none)).1,
    ((evaluatedSplitCandidates es mssa).foldl
      (fun m i => if costLt (costQ es i) m.2 then (i, some (costQ es i)) else m)
      (1, none)).2, ?_, ?_, ?_, ?_⟩
  · unfold findSplitIndexAndCost
    rw [if_neg hne]
  · intro j hj
    exact splitFold_min es (evaluatedSplitCandidates es mssa) (1, none) j hj
  · rcases splitFold_result es (evaluatedSplitCandidates es mssa) (1, none)
      with h | ⟨i', hi', h⟩
    · rw [h]
      exact Or.inl rfl
    · rw [h]
      exact Or.inr ⟨hi', rfl⟩
  · intro j
    unfold evaluatedSplitCandidates
    exact mem_candidateIndices es.length _ j hstep

theorem claim_C6_witness :
    ∃ (i : ℕ) (c : Option ℚ),
      findSplitIndexAndCost es15 4 = some (i, c) ∧
      (∀ j ∈ evaluatedSplitCandidates es15 4,
        costLe c (some (costQ es15 j)) = true) ∧
      ((i, c) = (1, none) ∨
        i ∈ evaluatedSplitCandidates es15 4 ∧ c = some (costQ es15 i)) ∧
      (∀ j : ℕ, j ∈ evaluatedSplitCandidates es15 4 ↔
        (∃ k : ℕ, j = 1 + k * (es15.length / min es15.length 4)) ∧
          1 ≤ j ∧ j < es15.length - 1) :=
  claim_C6 es15 4 (by decide) (by decide)

/-- C6 counterexample: with 15 entities and `max_split_samples_per_axis = 4`
the stride is `15 / 4 = 3` and FIVE candidate indices `1, 4, 7, 10, 13` are
evaluated — more than the configured maximum of 4. -/
theorem claim_C6_counterexample :
    evaluatedSplitCandidates es15 4 = [1, 4, 7, 10, 13] ∧
    4 < (evaluatedSplitCandidates es15 4).length := by
  refine ⟨by decide, by decide⟩

/-- C7: with each algorithm prepared on a snapshot (non-negative octree
paddings, successful octree query), an identifier with a tracked position at
squared distance exactly `r²` (with `0 ≤ r`) is included by all three
algorithms, and one all of whose tracked positions are at squared distance
strictly greater than `r²` is excluded by all three — the comparison is the
inclusive `≤`. -/
theorem claim_C7 (cfg : OctreeConfig) (es : List (ℕ × Vec3)) (b b' : Bvh)
    (oc' : Octree) (s : Vec3) (r : ℚ) (lq : List ℕ) (e : ℕ)
    (hip : 0 ≤ cfg.initialPadding) (hlp : 0 ≤ cfg.loosePadding)
    (hbp : b.prepare es = some b')
    (hop : (Octree.new cfg).prepare es = some oc')
    (hoq : oc'.entitiesInRadius s r = some lq) :
    ((∃ p, (e, p) ∈ es ∧ 0 ≤ r ∧ Vec3.dist2 p s = r * r) →
      e ∈ (Naive.default.prepare es).entitiesInRadius s r ∧
      e ∈ b'.entitiesInRadius s r ∧ e ∈ lq) ∧
    ((∀ p, (e, p) ∈ es → r * r < Vec3.dist2 p s) →
      e ∉ (Naive.default.prepare es).entitiesInRadius s r ∧
      e ∉ b'.entitiesInRadius s r ∧ e ∉ lq) := by
  have hn := Naive.mem_entitiesInRadius (Naive.default.prepare es) s r e
  have hb := Bvh.mem_entitiesInRadius_prepared b b' es hbp s r e
  have ho := Octree.mem_entitiesInRadius_prepared_fresh (Octree.new cfg) rfl hip hlp
    es oc' hop s r lq hoq e
  constructor
  · rintro ⟨p, hmem, hr, hd⟩
    have hrad : inRadiusB p s r = true :=
      (inRadiusB_iff p s r).mpr ⟨hr, le_of_eq hd⟩
    exact ⟨hn.mpr ⟨p, hmem, hrad⟩, hb.mpr ⟨p, hmem, hrad⟩,
      ho.mpr ⟨p, hmem, hrad⟩⟩
  · intro hout
    have hnone : ¬∃ p, (e, p) ∈ es ∧ inRadiusB p s r = true := by
      rintro ⟨p, hmem, hrad⟩
      have h := ((inRadiusB_iff p s r).mp hrad).2
      exact absurd h (not_le.mpr (hout p hmem))
    exact ⟨fun h => hnone (hn.mp h), fun h => hnone (hb.mp h),
      fun h => hnone (ho.mp h)⟩

theorem claim_C7_witness :
    ((∃ p, ((0 : ℕ), p) ∈ [((0 : ℕ), (⟨0, 0, 0⟩ : Vec3))] ∧ (0 : ℚ) ≤ 1 ∧
        Vec3.dist2 p ⟨1, 0, 0⟩ = 1 * 1) →
      0 ∈ (Naive.default.prepare
        [(0, (⟨0, 0, 0⟩ : Vec3))]).entitiesInRadius ⟨1, 0, 0⟩ 1 ∧
      0 ∈ bvhSingle.entitiesInRadius ⟨1, 0, 0⟩ 1 ∧ 0 ∈ ([0] : List ℕ)) ∧
    ((∀ p, ((0 : ℕ), p) ∈ [((0 : ℕ), (⟨0, 0, 0⟩ : Vec3))] →
        (1 : ℚ) * 1 < Vec3.dist2 p ⟨1, 0, 0⟩) →
      0 ∉ (Naive.default.prepare
        [(0, (⟨0, 0, 0⟩ : Vec3))]).entitiesInRadius ⟨1, 0, 0⟩ 1 ∧
      0 ∉ bvhSingle.entitiesInRadius ⟨1, 0, 0⟩ 1 ∧ 0 ∉ ([0] : List ℕ)) :=
  claim_C7 OctreeConfig.default [(0, ⟨0, 0, 0⟩)] Bvh.default bvhSingle
    ocSingle ⟨1, 0, 0⟩ 1 [0] 0 (by decide) (by decide) (by rfl) (by rfl)
    (by rfl)

/-- C8: querying any never-prepared instance returns the empty set without
panicking — the default BVH (no root, after the diagnostic), a fresh Octree
(`built == false`), and the fresh Naive scan. -/
theorem claim_C8 :
    (∀ (s : Vec3) (r : ℚ), Bvh.default.entitiesInRadius s r = []) ∧
    (∀ (cfg : OctreeConfig) (s : Vec3) (r : ℚ),
      (Octree.new cfg).entitiesInRadius s r = some []) ∧
    (∀ (s : Vec3) (r : ℚ), Naive.default.entitiesInRadius s r = []) :=
  ⟨bvh_unprepared_query, octree_unprepared_query, naive_unprepared_query⟩

set_option maxHeartbeats 4000000 in
/-- C9: refuted in its retrievability half — inserting `(1, (16/5, 0, 0))`
outside `ocSingle`'s root cube `[-1,1]³` succeeds: the root-growth loop
terminates with a padded root cube (center `(1,1,1)`, half-extent 2, loose
padding `1/2`) containing the point, and the pair is bucketed in child
octant 1 (center `(2,0,0)`).  BUT the query centered at the inserted point
with radius `1/10` returns nothing: `16/5` lies only in the loose shell, and
the pruning test uses unpadded cubes, so the traversal prunes already at the
root (`16/5 - 3 = 1/5 > 1/10`). -/
theorem claim_C9 :
    (ocSingle.insertEntity 1 ⟨mkRat 16 5, 0, 0⟩).map
      (fun oc => (oc.built, oc.nodes)) = some (true, arenaGrown) ∧
    (arenaGrown.head?.map fun n =>
      n.bounds.containsP ⟨mkRat 16 5, 0, 0⟩ OctreeConfig.default.loosePadding) =
      some true ∧
    ((ocSingle.insertEntity 1 ⟨mkRat 16 5, 0, 0⟩).bind
      (fun oc => oc.entitiesInRadius ⟨mkRat 16 5, 0, 0⟩ (mkRat 1 10))) =
      some [] ∧
    inRadiusB ⟨mkRat 16 5, 0, 0⟩ ⟨mkRat 16 5, 0, 0⟩ (mkRat 1 10) = true := by
  refine ⟨insert_far_projs, grown_root_contains_far_point, by rfl,
    far_point_is_in_radius⟩

/-- C10: on a never-built Octree (non-negative paddings, split threshold at
least 1), `remove_entity` is a no-op returning the state unchanged, while
`insert_entity` and `update_entity` both bootstrap via
`build_from_entities [(e, p)]`: the result is built, holds the pair in a
single root leaf, answers the query at `p` with any non-negative radius with
exactly `[e]`, and a later `prepare` (with any snapshot) is a no-op. -/
theorem claim_C10 (cfg : OctreeConfig) (e : ℕ) (p : Vec3) (r : ℚ)
    (es : List (ℕ × Vec3)) (hip : 0 ≤ cfg.initialPadding)
    (hlp : 0 ≤ cfg.loosePadding) (hst : 1 ≤ cfg.splitThreshold)
    (hr : 0 ≤ r) :
    (Octree.new cfg).removeEntity e = some (Octree.new cfg) ∧
    (Octree.new cfg).insertEntity e p =
      (Octree.new cfg).buildFromEntities [(e, p)] ∧
    (Octree.new cfg).updateEntity e p =
      (Octree.new cfg).buildFromEntities [(e, p)] ∧
    ∃ oc' : Octree,
      (Octree.new cfg).buildFromEntities [(e, p)] = some oc' ∧
      oc'.built = true ∧
      oc'.entitiesInRadius p r = some [e] ∧
      oc'.prepare es = some oc' := by
  have hcube : inCube p
      (⟨p, max cfg.initialPadding cfg.minHalfSize⟩ : AabbCube) := by
    refine ⟨?_, ?_, ?_⟩ <;> simp <;> exact Or.inl hip
  refine ⟨rfl, rfl, rfl, _,
    buildFromEntities_single (Octree.new cfg) e p hip hlp hst, rfl, ?_, ?_⟩
  · show (Octree.mk cfg true
      [ONode.mk ⟨p, max cfg.initialPadding cfg.minHalfSize⟩ 0 none [(e, p)]]
      (fun k => if k = e then some 0 else none)).entitiesInRadius p r = some [e]
    rw [entitiesInRadius_single cfg
      ⟨p, max cfg.initialPadding cfg.minHalfSize⟩ e p _ p r ?hint]
    case hint =>
      refine intersectsSphereC_of_inCube _ p p r hcube ?_
      rw [Vec3.dist2_self]
      positivity
    rw [if_pos ((inRadiusB_iff p p r).mpr ⟨hr, by rw [Vec3.dist2_self]; positivity⟩)]
  · exact Octree.prepare_built_noop _ rfl es

theorem claim_C10_witness :
    (Octree.new OctreeConfig.default).removeEntity 5 =
      some (Octree.new OctreeConfig.default) ∧
    (Octree.new OctreeConfig.default).insertEntity 5 ⟨1, 2, 3⟩ =
      (Octree.new OctreeConfig.default).buildFromEntities [(5, ⟨1, 2, 3⟩)] ∧
    (Octree.new OctreeConfig.default).updateEntity 5 ⟨1, 2, 3⟩ =
      (Octree.new OctreeConfig.default).buildFromEntities [(5, ⟨1, 2, 3⟩)] ∧
    ∃ oc' : Octree,
      (Octree.new OctreeConfig.default).buildFromEntities [(5, ⟨1, 2, 3⟩)] =
        some oc' ∧
      oc'.built = true ∧
      oc'.entitiesInRadius ⟨1, 2, 3⟩ 2 = some [5] ∧
      oc'.prepare [] = some oc' :=
  claim_C10 OctreeConfig.default 5 ⟨1, 2, 3⟩ 2 [] (by decide) (by decide)
    (by decide) (by decide)
